import Mathlib

/-!
Personal finance ledger: `FinanceManager` of `MiniProjectFinal.cpp`.

A shallow embedding of the ledger store of the final version of the program
(`src/MiniProjectFinal.cpp`) and theorems about it, with the ledger stores of
`src/MiniProjectF.cpp` and `src/tempCodeRunnerFile.cpp` for the comparison of
the versions.

Modelling conventions.

* `std::string` is a `List Char`.
* A finite `double` is read as an exact rational number (`ℚ`): rounding to
  53 bits is outside the model.  The ledger store is given twice.  In the
  first reading the amount of a record is a rational; it carries the
  statements about balances, lists and the round trip through the file.  In
  the second reading (namespace `Ieee`) the amount is a `Double`, which is a
  rational, the negative zero, an infinity or a NaN; it carries the statements
  that reach such amounts (the amount invariant, the loading of arbitrary
  files).
* The text conversions `ostream << double` and `std::stod` are
  standard-library code.  `showDouble` models the first with the stream's
  default settings (six significant digits, `%g` style).  `stod` models the
  second as `strtod` of the C library does it: white space, sign, decimal and
  hexadecimal notation, `inf` and `nan`, with `std::invalid_argument` when
  there is no number and `std::out_of_range` when the number overflows or
  underflows the range of `double`.
* `vector<Transaction*>` with exclusively owned heap records is a `List` of
  record values.  The loops that count with an `int` are modelled for ledgers
  of fewer than `2 ^ 31` records.
* The file system gives, for a file name, its content (`none`: the file
  cannot be opened for reading) and whether it can be written.  Writing a
  file that cannot be written leaves the file system as it was and raises
  nothing, as the source never tests its output stream.
* A C++ exception is an `Exn` value returned next to the state that the
  call leaves behind.
-/

namespace Ledger

/-! ## Strings and streams -/

/-- A `std::string`. -/
abbrev Str := List Char

/-- Model of `std::getline(stream, field, delim)` on the unread rest of an
input stream.  `none`: the call fails (nothing could be extracted, the stream
is at its end).  Otherwise the field read and the rest of the stream; the
delimiter is consumed and not stored.  When the end of the stream is hit
before a delimiter the call still succeeds with what was read, the rest is
empty, and the next call fails (this is what `eofbit` does in the source). -/
def getline (delim : Char) : Str → Option (Str × Str)
  | [] => none
  | c :: cs =>
    if c = delim then some ([], cs)
    else
      match getline delim cs with
      | none => some ([c], [])
      | some (field, rest) => some (c :: field, rest)

/-! ## Text form of a `double` -/

/-- The `k` low decimal digits of `n`, most significant first. -/
def digitsFixed : Nat → Nat → Str
  | 0, _ => []
  | k + 1, n => digitsFixed k (n / 10) ++ [Nat.digitChar (n % 10)]

/-- Removes the zeros at the end of a digit string. -/
def stripZeros (s : Str) : Str :=
  (s.reverse.dropWhile (fun c => c == '0')).reverse

/-- The largest `k` with `10 ^ k * d ≤ n`, for `0 < d ≤ n` (fuel `n`). -/
def expUp : Nat → Nat → Nat → Nat
  | 0, _, _ => 0
  | fuel + 1, n, d => if n < 10 * d then 0 else expUp fuel n (10 * d) + 1

/-- The smallest `k ≥ 1` with `d ≤ 10 ^ k * n`, for `0 < n < d` (fuel `d`). -/
def expDown : Nat → Nat → Nat → Nat
  | 0, _, _ => 1
  | fuel + 1, n, d => if d ≤ 10 * n then 1 else expDown fuel (10 * n) d + 1

/-- Quotient `n / d` rounded to the nearest integer, ties to even. -/
def roundDiv (n d : Nat) : Nat :=
  let q := n / d
  let r := n % d
  if 2 * r < d then q
  else if d < 2 * r then q + 1
  else if q % 2 = 0 then q else q + 1

/-- Decimal exponent of the positive rational `n / d`: the `x` with
`10 ^ x ≤ n / d < 10 ^ (x + 1)`. -/
def decExp (n d : Nat) : Int :=
  if d ≤ n then (expUp n n d : Int) else -(expDown d n d : Int)

/-- The positive rational `n / d` scaled to six significant digits:
`n / d * 10 ^ (5 - x)` rounded to an integer. -/
def scaled (n d : Nat) (x : Int) : Nat :=
  if x ≤ 5 then roundDiv (n * 10 ^ (5 - x).toNat) d
  else roundDiv n (d * 10 ^ (x - 5).toNat)

/-- Six significant digits `m` and decimal exponent `x` of the positive
rational `n / d`, so that the rounded value is `m * 10 ^ (x - 5)` with
`10 ^ 5 ≤ m < 10 ^ 6`. -/
def sixDigits (n d : Nat) : Nat × Int :=
  let x := decExp n d
  let m := scaled n d x
  if m = 10 ^ 6 then (10 ^ 5, x + 1) else (m, x)

/-- Exponent field of the scientific form: sign and at least two digits. -/
def showExp (x : Int) : Str :=
  (if x < 0 then '-' else '+') ::
    (if x.natAbs < 10 then '0' :: Nat.toDigits 10 x.natAbs
     else Nat.toDigits 10 x.natAbs)

/-- Fraction part after the point: nothing when it is empty. -/
def showFrac (frac : Str) : Str :=
  if frac = [] then [] else '.' :: frac

/-- Text of the positive rational `n / d` as `ostream << double` writes it
with the default settings (precision 6, neither `fixed` nor `scientific`):
the C `%g` conversion. -/
def showPos (n d : Nat) : Str :=
  let md := sixDigits n d
  let ds := digitsFixed 6 md.1
  let x := md.2
  if 6 ≤ x ∨ x < -4 then
    ds.take 1 ++ showFrac (stripZeros (ds.drop 1)) ++ 'e' :: showExp x
  else if 0 ≤ x then
    ds.take (x.toNat + 1) ++ showFrac (stripZeros (ds.drop (x.toNat + 1)))
  else
    '0' :: showFrac (stripZeros (List.replicate ((-x).toNat - 1) '0' ++ ds))

/-- Model of `ostream << double` with the stream's default formatting. -/
def showDouble (a : ℚ) : Str :=
  if a = 0 then ['0']
  else if a < 0 then '-' :: showPos a.num.natAbs a.den
  else showPos a.num.natAbs a.den

/-- The C `isspace` test of the default locale. -/
def isSpace (c : Char) : Bool :=
  c == ' ' || c == '\t' || c == '\n' || c == '\x0b' || c == '\x0c' || c == '\r'

/-- Value of a string of decimal digits. -/
def natOfDigits (s : Str) : Nat :=
  s.foldl (fun n c => 10 * n + (c.toNat - 48)) 0

/-- Exponent part of a decimal number: `e` or `E`, an optional sign and
digits.  An exponent mark not followed by digits is not part of the number. -/
def parseExp : Str → Int
  | [] => 0
  | c :: t =>
    if c = 'e' ∨ c = 'E' then
      match t with
      | '-' :: u => -(natOfDigits (u.takeWhile Char.isDigit) : Int)
      | '+' :: u => (natOfDigits (u.takeWhile Char.isDigit) : Int)
      | u => (natOfDigits (u.takeWhile Char.isDigit) : Int)
    else 0

/-- Value of a decimal number, given the digits before the point, the digits
after the point, and the text that follows them, where an exponent may stand.
`none`: there is no digit at all. -/
def decimalValue (ip fp rest : Str) : Option ℚ :=
  if ip = [] ∧ fp = [] then none
  else some ((natOfDigits (ip ++ fp) : ℚ) * (10 : ℚ) ^ (parseExp rest - (fp.length : Int)))

/-- The longest decimal number without sign at the start of a text: digits,
an optional point and digits, an optional exponent. -/
def stodUnsigned (s : Str) : Option ℚ :=
  match s.dropWhile Char.isDigit with
  | '.' :: t =>
    decimalValue (s.takeWhile Char.isDigit) (t.takeWhile Char.isDigit) (t.dropWhile Char.isDigit)
  | rest => decimalValue (s.takeWhile Char.isDigit) [] rest

/-- The exceptions thrown by the ledger store and by `std::stod`, with their
messages. -/
inductive Exn where
  | invalid_argument (what : String)
  | out_of_range (what : String)
deriving DecidableEq, Repr

/-- A value of type `double`.  A finite value is held as an exact rational
(no rounding to 53 bits); the negative zero, the two infinities and the NaNs
(with their sign bit, which the text form shows) are values of their own. -/
inductive Double where
  | finite (q : ℚ)
  | negZero
  | inf (negative : Bool)
  | nan (negative : Bool)
deriving DecidableEq

deriving instance DecidableEq for Except

/-- The rational that a `double` holds, if it holds one. -/
def Double.exact : Double → Option ℚ
  | Double.finite q => some q
  | Double.negZero => some 0
  | Double.inf _ => none
  | Double.nan _ => none

/-- The comparison `d <= 0` of the guard of `addTransaction`: false for a
NaN, as every comparison with a NaN is. -/
def Double.leZero : Double → Bool
  | Double.finite q => decide (q ≤ 0)
  | Double.negZero => true
  | Double.inf negative => negative
  | Double.nan _ => false

/-- The comparison `d > 0`. -/
def Double.isPos : Double → Bool
  | Double.finite q => decide (0 < q)
  | Double.negZero => false
  | Double.inf negative => !negative
  | Double.nan _ => false

/-- Model of `ostream << double` on every value of the type. -/
def Double.text : Double → Str
  | Double.finite q => showDouble q
  | Double.negZero => "-0".toList
  | Double.inf false => "inf".toList
  | Double.inf true => "-inf".toList
  | Double.nan false => "nan".toList
  | Double.nan true => "-nan".toList

/-- What `strtod` reads after the white space and the sign. -/
inductive Magnitude where
  | value (v : ℚ)
  | inf
  | nan
deriving DecidableEq

/-- The character `c` is the lower-case letter `w` or its upper-case form. -/
def sameLetter (w c : Char) : Bool :=
  c == w || c == w.toUpper

/-- The text starts with the word `w` (given in lower case), in any mix of
upper and lower case. -/
def startsWithWord : Str → Str → Bool
  | [], _ => true
  | _ :: _, [] => false
  | w :: ws, c :: cs => sameLetter w c && startsWithWord ws cs

/-- The C `isxdigit` test. -/
def isXDigit (c : Char) : Bool :=
  c.isDigit || (97 ≤ c.toNat && c.toNat ≤ 102) || (65 ≤ c.toNat && c.toNat ≤ 70)

/-- Value of a hexadecimal digit. -/
def xDigitValue (c : Char) : Nat :=
  if c.isDigit then c.toNat - 48
  else if 97 ≤ c.toNat then c.toNat - 87
  else c.toNat - 55

/-- Value of a string of hexadecimal digits. -/
def natOfXDigits (s : Str) : Nat :=
  s.foldl (fun n c => 16 * n + xDigitValue c) 0

/-- Binary exponent part of a hexadecimal number: `p` or `P`, an optional
sign and decimal digits.  An exponent mark not followed by digits is not part
of the number. -/
def parseBinExp : Str → Int
  | [] => 0
  | c :: t =>
    if c = 'p' ∨ c = 'P' then
      match t with
      | '-' :: u => -(natOfDigits (u.takeWhile Char.isDigit) : Int)
      | '+' :: u => (natOfDigits (u.takeWhile Char.isDigit) : Int)
      | u => (natOfDigits (u.takeWhile Char.isDigit) : Int)
    else 0

/-- Value of the hexadecimal number that follows `0x`: hexadecimal digits,
an optional point and hexadecimal digits, an optional binary exponent.
`none`: there is no hexadecimal digit, and `strtod` then reads the `0` before
the `x` alone. -/
def hexValue (s : Str) : Option ℚ :=
  match s.dropWhile isXDigit with
  | '.' :: t =>
    if s.takeWhile isXDigit = [] ∧ t.takeWhile isXDigit = [] then none
    else some ((natOfXDigits (s.takeWhile isXDigit ++ t.takeWhile isXDigit) : ℚ)
      * (2 : ℚ) ^ (parseBinExp (t.dropWhile isXDigit)
          - 4 * ((t.takeWhile isXDigit).length : Int)))
  | rest =>
    if s.takeWhile isXDigit = [] then none
    else some ((natOfXDigits (s.takeWhile isXDigit) : ℚ) * (2 : ℚ) ^ parseBinExp rest)

/-- The longest number without sign that `strtod` finds at the start of a
text: `inf` or `infinity`, `nan`, a hexadecimal number after `0x`, or a
decimal number.  `none`: the text starts with none of them. -/
def strtodUnsigned (s : Str) : Option Magnitude :=
  if startsWithWord "inf".toList s then some Magnitude.inf
  else if startsWithWord "nan".toList s then some Magnitude.nan
  else
    match s with
    | '0' :: x :: t =>
      if x = 'x' ∨ x = 'X' then
        match hexValue t with
        | some v => some (Magnitude.value v)
        | none => some (Magnitude.value 0)
      else (stodUnsigned s).map Magnitude.value
    | _ => (stodUnsigned s).map Magnitude.value

/-- The value is too large for a `double`: it is at or above the midpoint
between the largest finite `double` and `2 ^ 1024`, so it rounds to an
infinity and `strtod` sets `ERANGE`. -/
def overflows (v : ℚ) : Prop :=
  (2 : ℚ) ^ 1024 - (2 : ℚ) ^ 970 ≤ |v|

instance (v : ℚ) : Decidable (overflows v) := by
  unfold overflows; infer_instance

/-- The value underflows: it is not zero, it rounds to less than the least
normal `double` `2 ^ (-1022)`, and it is not itself a subnormal `double` (a
multiple of `2 ^ (-1074)`), so the result is inexact and `strtod` sets
`ERANGE`. -/
def underflows (v : ℚ) : Prop :=
  v ≠ 0 ∧ |v| < 1 / (2 : ℚ) ^ 1022 - 1 / (2 : ℚ) ^ 1076 ∧ (|v| * (2 : ℚ) ^ 1074).den ≠ 1

instance (v : ℚ) : Decidable (underflows v) := by
  unfold underflows; infer_instance

/-- The result of `std::stod` for the sign and the number that `strtod`
found: `std::invalid_argument` when there is no number, `std::out_of_range`
when `strtod` reports `ERANGE`, the value otherwise. -/
def stodResult (negative : Bool) : Option Magnitude → Except Exn Double
  | none => Except.error (Exn.invalid_argument "stod")
  | some Magnitude.inf => Except.ok (Double.inf negative)
  | some Magnitude.nan => Except.ok (Double.nan negative)
  | some (Magnitude.value v) =>
    if overflows v ∨ underflows v then Except.error (Exn.out_of_range "stod")
    else if v = 0 then Except.ok (if negative then Double.negZero else Double.finite 0)
    else Except.ok (Double.finite (if negative then -v else v))

/-- Model of `std::stod`: skips leading white space, reads a sign and the
longest number that follows (decimal, hexadecimal, `inf`, `nan`) and ignores
the rest of the text.  It throws `std::invalid_argument` when no number could
be read and `std::out_of_range` when the number is outside the range of
`double`. -/
def stod (s : Str) : Except Exn Double :=
  match s.dropWhile isSpace with
  | '-' :: t => stodResult true (strtodUnsigned t)
  | '+' :: t => stodResult false (strtodUnsigned t)
  | t => stodResult false (strtodUnsigned t)

/-- The amount can be held by a `double` without a range error: it is zero,
or its magnitude is at least the least normal `double` and below the
overflow threshold. -/
def InDoubleRange (a : ℚ) : Prop :=
  a = 0 ∨ (1 / (2 : ℚ) ^ 1022 ≤ |a| ∧ |a| < (2 : ℚ) ^ 1024 - (2 : ℚ) ^ 970)

instance (a : ℚ) : Decidable (InDoubleRange a) := by
  unfold InDoubleRange; infer_instance

/-! ## Records -/

/-- The type name `"Income"`. -/
def incomeName : Str := "Income".toList

/-- The type name `"Expense"`. -/
def expenseName : Str := "Expense".toList

/-- The class `Transaction`: its four data members. -/
structure Transaction where
  type : Str
  amount : ℚ
  dateTime : Str
  note : Str
deriving DecidableEq

/-- Constructor of the derived class `Income`. -/
def Income (amt : ℚ) (dt nt : Str) : Transaction :=
  { type := incomeName, amount := amt, dateTime := dt, note := nt }

/-- Constructor of the derived class `Expense`. -/
def Expense (amt : ℚ) (dt nt : Str) : Transaction :=
  { type := expenseName, amount := amt, dateTime := dt, note := nt }

/-- Output of `Transaction::display`. -/
def Transaction.display (t : Transaction) : Str :=
  t.type ++ " : ".toList ++ showDouble t.amount ++ "  |  ".toList ++ t.dateTime
    ++ "  |  Note: ".toList ++ t.note ++ ['\n']

/-! ## The ledger store -/

/-- The file system.  `read name` is the content of the file `name`, `none`
when it cannot be opened for reading.  `canWrite name` tells whether an
`ofstream` on `name` opens and its writes reach the file; when it does not,
the stream is in a failed state, nothing is written and nothing is thrown. -/
structure Disk where
  read : Str → Option Str
  canWrite : Str → Bool

instance : CoeFun Disk (fun _ => Str → Option Str) := ⟨Disk.read⟩

/-- The file system after `ofstream file(name)`, the writing of `content` and
`file.close()`: the file holds `content` and nothing of what it held before;
a file that cannot be written is left as it was. -/
def Disk.write (disk : Disk) (name : Str) (content : Str) : Disk :=
  if disk.canWrite name then
    { disk with read := Function.update disk.read name (some content) }
  else disk

/-- Data members of the class `FinanceManager`. -/
structure FinanceManager where
  records : List Transaction
  filename : Str
deriving DecidableEq

/-- Constructor `FinanceManager(file)`: no records yet. -/
def FinanceManager.new (file : Str) : FinanceManager :=
  { records := [], filename := file }

/-- State left behind by a member function that changes the store or the
file system, and the exception it threw, if any. -/
structure Outcome where
  fm : FinanceManager
  disk : Disk
  thrown : Option Exn

/-- Member `isEmpty`. -/
def FinanceManager.isEmpty (fm : FinanceManager) : Bool :=
  fm.records.isEmpty

/-- Member `getBalance`: one pass over the records with two running totals. -/
def FinanceManager.getBalance (fm : FinanceManager) : ℚ :=
  let totals := fm.records.foldl
    (fun (acc : ℚ × ℚ) t =>
      if t.type = incomeName then (acc.1 + t.amount, acc.2)
      else (acc.1, acc.2 + t.amount))
    (0, 0)
  totals.1 - totals.2

/-- What one iteration of the loop of `saveToFile` writes to the stream. -/
def writeRecord (out : Str) (t : Transaction) : Str :=
  out ++ t.type ++ [','] ++ showDouble t.amount ++ [','] ++ t.dateTime ++ [',']
    ++ t.note ++ ['\n']

/-- Member `saveToFile`: opens the file for writing, which discards what it
held, and writes the records in order.  The source never looks at the state
of the stream: when the file cannot be written the call returns all the same. -/
def FinanceManager.saveToFile (fm : FinanceManager) (disk : Disk) : Disk :=
  disk.write fm.filename (fm.records.foldl writeRecord [])

/-- Conversion of an `int` to `size_t` (64 bits), as done by the comparison
`index >= records.size()`. -/
def toSizeT (i : Int) : Nat := (i % 2 ^ 64).toNat

/-- Member `addTransaction`. -/
def FinanceManager.addTransaction (fm : FinanceManager) (disk : Disk)
    (t : Transaction) : Outcome :=
  if t.amount ≤ 0 then
    { fm := fm, disk := disk,
      thrown := some (Exn.invalid_argument "Amount must be greater than 0") }
  else
    let fm1 := { fm with records := fm.records ++ [t] }
    { fm := fm1, disk := fm1.saveToFile disk, thrown := none }

/-- Member `removeTransaction`; `index` is an `int`. -/
def FinanceManager.removeTransaction (fm : FinanceManager) (disk : Disk)
    (index : Int) : Outcome :=
  if index < 0 ∨ toSizeT index ≥ fm.records.length then
    { fm := fm, disk := disk, thrown := some (Exn.out_of_range "Invalid index") }
  else
    let fm1 := { fm with records := fm.records.eraseIdx index.toNat }
    { fm := fm1, disk := fm1.saveToFile disk, thrown := none }

/-- The loop of `displayAll` from position `i` on: each record on a line of
its own after its position. -/
def displayFrom : Nat → List Transaction → Str
  | _, [] => []
  | i, t :: ts => Nat.toDigits 10 i ++ ". ".toList ++ t.display ++ displayFrom (i + 1) ts

/-- Member `displayAll`: the text written to `cout`. -/
def FinanceManager.displayAll (fm : FinanceManager) : Str :=
  if fm.records.isEmpty then "\nNo transactions found.\n".toList
  else "\n--- Transaction List ---\n".toList ++ displayFrom 0 fm.records

/-- The condition of the loop of `loadFromFile`: four `getline` calls joined
by `&&`, the first three up to a comma and the last up to the end of the
line.  `none`: one of them failed and the loop ends.  Otherwise the four fields
and the unread rest of the file. -/
def readFields (input : Str) : Option (Str × Str × Str × Str × Str) :=
  match getline ',' input with
  | none => none
  | some (type, in1) =>
    match getline ',' in1 with
    | none => none
    | some (amtStr, in2) =>
      match getline ',' in2 with
      | none => none
      | some (dt, in3) =>
        match getline '\n' in3 with
        | none => none
        | some (nt, in4) => some (type, amtStr, dt, nt, in4)

/-- The loop of `loadFromFile` on the unread rest of the file.  It returns
the records and the exception of `stod`, if it threw.  Every iteration
consumes at least one character, so fuel above the length of the input is
never used up.  Amounts are rationals in this reading of the store: an amount
text that `stod` reads as an infinity or a NaN has no record here and the
reading ends at that line; `Ieee.loadLoop` is the loop that stores such
records.  No rational amount that `saveToFile` writes reads back as one
(`stod_showDouble_exact`). -/
def loadLoop : Nat → Str → List Transaction → List Transaction × Option Exn
  | 0, _, acc => (acc, none)
  | fuel + 1, input, acc =>
    match readFields input with
    | none => (acc, none)
    | some (type, amtStr, dt, nt, rest) =>
      match stod amtStr with
      | Except.error e => (acc, some e)
      | Except.ok d =>
        match d.exact with
        | none => (acc, none)
        | some amt =>
          if type = incomeName then
            loadLoop fuel rest (acc ++ [Income amt dt nt])
          else
            loadLoop fuel rest (acc ++ [Expense amt dt nt])

/-- Member `loadFromFile`. -/
def FinanceManager.loadFromFile (fm : FinanceManager) (disk : Disk) : Outcome :=
  match disk fm.filename with
  | none => { fm := { fm with records := [] }, disk := disk, thrown := none }
  | some content =>
    let r := loadLoop (content.length + 1) content []
    { fm := { fm with records := r.1 }, disk := disk, thrown := r.2 }

/-! ## The final version with the amount as a `double` of every kind

The definitions above hold the amount as a rational.  A `double` can also be
an infinity or a NaN, which `stod` reads from the texts `inf` and `nan` and
which the guard of `addTransaction` treats in its own way.  The namespace
`Ieee` repeats the record, the store and its members with the amount as a
`Double`; the member functions are the same text of `MiniProjectFinal.cpp`. -/

namespace Ieee

/-- The class `Transaction`: its four data members. -/
structure Transaction where
  type : Str
  amount : Double
  dateTime : Str
  note : Str
deriving DecidableEq

/-- Constructor of the derived class `Income`. -/
def Income (amt : Double) (dt nt : Str) : Transaction :=
  { type := incomeName, amount := amt, dateTime := dt, note := nt }

/-- Constructor of the derived class `Expense`. -/
def Expense (amt : Double) (dt nt : Str) : Transaction :=
  { type := expenseName, amount := amt, dateTime := dt, note := nt }

/-- Data members of the class `FinanceManager`. -/
structure FinanceManager where
  records : List Transaction
  filename : Str
deriving DecidableEq

/-- Constructor `FinanceManager(file)`: no records yet. -/
def FinanceManager.new (file : Str) : FinanceManager :=
  { records := [], filename := file }

/-- State left behind by a member function and the exception it threw, if any. -/
structure Outcome where
  fm : FinanceManager
  disk : Disk
  thrown : Option Exn

/-- What one iteration of the loop of `saveToFile` writes to the stream. -/
def writeRecord (out : Str) (t : Transaction) : Str :=
  out ++ t.type ++ [','] ++ t.amount.text ++ [','] ++ t.dateTime ++ [',']
    ++ t.note ++ ['\n']

/-- Member `saveToFile`. -/
def FinanceManager.saveToFile (fm : FinanceManager) (disk : Disk) : Disk :=
  disk.write fm.filename (fm.records.foldl writeRecord [])

/-- Member `addTransaction`: the guard is the comparison `amount <= 0`. -/
def FinanceManager.addTransaction (fm : FinanceManager) (disk : Disk)
    (t : Transaction) : Outcome :=
  if t.amount.leZero then
    { fm := fm, disk := disk,
      thrown := some (Exn.invalid_argument "Amount must be greater than 0") }
  else
    let fm1 := { fm with records := fm.records ++ [t] }
    { fm := fm1, disk := fm1.saveToFile disk, thrown := none }

/-- Member `removeTransaction`; `index` is an `int`. -/
def FinanceManager.removeTransaction (fm : FinanceManager) (disk : Disk)
    (index : Int) : Outcome :=
  if index < 0 ∨ toSizeT index ≥ fm.records.length then
    { fm := fm, disk := disk, thrown := some (Exn.out_of_range "Invalid index") }
  else
    let fm1 := { fm with records := fm.records.eraseIdx index.toNat }
    { fm := fm1, disk := fm1.saveToFile disk, thrown := none }

/-- The loop of `loadFromFile` on the unread rest of the file: every amount
that `stod` returns is stored, whatever its sign and kind.  It returns the
records and the exception of `stod`, if it threw.  Every iteration consumes
at least one character, so fuel above the length of the input is never used
up. -/
def loadLoop : Nat → Str → List Transaction → List Transaction × Option Exn
  | 0, _, acc => (acc, none)
  | fuel + 1, input, acc =>
    match readFields input with
    | none => (acc, none)
    | some (type, amtStr, dt, nt, rest) =>
      match stod amtStr with
      | Except.error e => (acc, some e)
      | Except.ok amt =>
        if type = incomeName then
          loadLoop fuel rest (acc ++ [Income amt dt nt])
        else
          loadLoop fuel rest (acc ++ [Expense amt dt nt])

/-- Member `loadFromFile`. -/
def FinanceManager.loadFromFile (fm : FinanceManager) (disk : Disk) : Outcome :=
  match disk fm.filename with
  | none => { fm := { fm with records := [] }, disk := disk, thrown := none }
  | some content =>
    let r := loadLoop (content.length + 1) content []
    { fm := { fm with records := r.1 }, disk := disk, thrown := r.2 }

end Ieee

/-! ## The earlier versions of the ledger store

`MiniProjectF.cpp` stores the kind and the amount of a record;
`tempCodeRunnerFile.cpp` stores a note as well.  Their classes have the names
of the final version and live in namespaces of their own here. -/

/-- Conversion of a `size_t` to `int` (32 bits, wrapping), as done by the
cast `(int)records.size()`. -/
def toInt (n : Nat) : Int := ((n : Int) + 2 ^ 31) % 2 ^ 32 - 2 ^ 31

namespace MiniProjectF

/-- The class `Transaction` of `MiniProjectF.cpp`: kind and amount. -/
structure Transaction where
  type : Str
  amount : ℚ
deriving DecidableEq

/-- Constructor of the derived class `Income`. -/
def Income (amt : ℚ) : Transaction :=
  { type := incomeName, amount := amt }

/-- Constructor of the derived class `Expense`. -/
def Expense (amt : ℚ) : Transaction :=
  { type := expenseName, amount := amt }

/-- Data members of the class `FinanceManager`. -/
structure FinanceManager where
  records : List Transaction
  filename : Str
deriving DecidableEq

/-- State left behind by a member function and the exception it threw, if any. -/
structure Outcome where
  fm : FinanceManager
  disk : Disk
  thrown : Option Exn

/-- What one iteration of the loop of `saveToFile` writes to the stream. -/
def writeRecord (out : Str) (t : Transaction) : Str :=
  out ++ t.type ++ [','] ++ showDouble t.amount ++ ['\n']

/-- Member `saveToFile`: the file is opened for writing, which discards what
it held, and the records are written in order. -/
def FinanceManager.saveToFile (fm : FinanceManager) (disk : Disk) : Disk :=
  disk.write fm.filename (fm.records.foldl writeRecord [])

/-- Member `addTransaction`. -/
def FinanceManager.addTransaction (fm : FinanceManager) (disk : Disk)
    (t : Transaction) : Outcome :=
  if t.amount ≤ 0 then
    { fm := fm, disk := disk,
      thrown := some (Exn.invalid_argument "Amount must be greater than 0") }
  else
    let fm1 := { fm with records := fm.records ++ [t] }
    { fm := fm1, disk := fm1.saveToFile disk, thrown := none }

/-- Member `removeTransaction`; `index` is an `int`, compared with the
unsigned `records.size()`. -/
def FinanceManager.removeTransaction (fm : FinanceManager) (disk : Disk)
    (index : Int) : Outcome :=
  if index < 0 ∨ toSizeT index ≥ fm.records.length then
    { fm := fm, disk := disk, thrown := some (Exn.out_of_range "Invalid index") }
  else
    let fm1 := { fm with records := fm.records.eraseIdx index.toNat }
    { fm := fm1, disk := fm1.saveToFile disk, thrown := none }

/-- The loop of `loadFromFile`: `getline` up to a comma, then `file >> amt`,
then `file.ignore()`, which skips one character.  The formatted extraction
`file >> amt` is standard-library code and is a parameter here: `extract`
gives, for the unread rest of the file, `none` when the extraction fails and
otherwise the amount read and what is left unread. -/
def loadLoop (extract : Str → Option (ℚ × Str)) : Nat → Str → List Transaction
    → List Transaction
  | 0, _, acc => acc
  | fuel + 1, input, acc =>
    match getline ',' input with
    | none => acc
    | some (type, in1) =>
      match extract in1 with
      | none => acc
      | some (amt, in2) =>
        if type = incomeName then
          loadLoop extract fuel (in2.drop 1) (acc ++ [Income amt])
        else
          loadLoop extract fuel (in2.drop 1) (acc ++ [Expense amt])

/-- Member `loadFromFile`; it throws nothing. -/
def FinanceManager.loadFromFile (extract : Str → Option (ℚ × Str)) (fm : FinanceManager)
    (disk : Disk) : Outcome :=
  match disk fm.filename with
  | none => { fm := { fm with records := [] }, disk := disk, thrown := none }
  | some content =>
    { fm := { fm with records := loadLoop extract (content.length + 1) content [] },
      disk := disk, thrown := none }

end MiniProjectF

namespace TempCodeRunner

/-- The class `Transaction` of `tempCodeRunnerFile.cpp`: kind, amount and
note. -/
structure Transaction where
  type : Str
  amount : ℚ
  note : Str
deriving DecidableEq

/-- Constructor of the derived class `Income`. -/
def Income (amt : ℚ) (nt : Str) : Transaction :=
  { type := incomeName, amount := amt, note := nt }

/-- Constructor of the derived class `Expense`. -/
def Expense (amt : ℚ) (nt : Str) : Transaction :=
  { type := expenseName, amount := amt, note := nt }

/-- Data members of the class `FinanceManager`. -/
structure FinanceManager where
  records : List Transaction
  filename : Str
deriving DecidableEq

/-- Constructor `FinanceManager(file)`: no records yet. -/
def FinanceManager.new (file : Str) : FinanceManager :=
  { records := [], filename := file }

/-- State left behind by a member function and the exception it threw, if any. -/
structure Outcome where
  fm : FinanceManager
  disk : Disk
  thrown : Option Exn

/-- What one iteration of the loop of `saveToFile` writes to the stream. -/
def writeRecord (out : Str) (t : Transaction) : Str :=
  out ++ t.type ++ [','] ++ showDouble t.amount ++ [','] ++ t.note ++ ['\n']

/-- Member `saveToFile`: the file is opened for writing, which discards what
it held, and the records are written in order. -/
def FinanceManager.saveToFile (fm : FinanceManager) (disk : Disk) : Disk :=
  disk.write fm.filename (fm.records.foldl writeRecord [])

/-- Member `addTransaction`. -/
def FinanceManager.addTransaction (fm : FinanceManager) (disk : Disk)
    (t : Transaction) : Outcome :=
  if t.amount ≤ 0 then
    { fm := fm, disk := disk,
      thrown := some (Exn.invalid_argument "Amount must be greater than 0") }
  else
    let fm1 := { fm with records := fm.records ++ [t] }
    { fm := fm1, disk := fm1.saveToFile disk, thrown := none }

/-- Member `removeTransaction`; `index` is an `int`, compared with
`(int)records.size()`. -/
def FinanceManager.removeTransaction (fm : FinanceManager) (disk : Disk)
    (index : Int) : Outcome :=
  if index < 0 ∨ index ≥ toInt fm.records.length then
    { fm := fm, disk := disk, thrown := some (Exn.out_of_range "Invalid index") }
  else
    let fm1 := { fm with records := fm.records.eraseIdx index.toNat }
    { fm := fm1, disk := fm1.saveToFile disk, thrown := none }

/-- The condition of the loop of `loadFromFile`: three `getline` calls joined
by `&&`, the first two up to a comma and the last up to the end of the line. -/
def readFields (input : Str) : Option (Str × Str × Str × Str) :=
  match getline ',' input with
  | none => none
  | some (type, in1) =>
    match getline ',' in1 with
    | none => none
    | some (amtStr, in2) =>
      match getline '\n' in2 with
      | none => none
      | some (note, in3) => some (type, amtStr, note, in3)

/-- The loop of `loadFromFile` on the unread rest of the file, with the
records and the exception of `stod`, if it threw.  As in the final version,
the reading ends at an amount text that is an infinity or a NaN. -/
def loadLoop : Nat → Str → List Transaction → List Transaction × Option Exn
  | 0, _, acc => (acc, none)
  | fuel + 1, input, acc =>
    match readFields input with
    | none => (acc, none)
    | some (type, amtStr, note, rest) =>
      match stod amtStr with
      | Except.error e => (acc, some e)
      | Except.ok d =>
        match d.exact with
        | none => (acc, none)
        | some amt =>
          if type = incomeName then
            loadLoop fuel rest (acc ++ [Income amt note])
          else
            loadLoop fuel rest (acc ++ [Expense amt note])

/-- Member `loadFromFile`. -/
def FinanceManager.loadFromFile (fm : FinanceManager) (disk : Disk) : Outcome :=
  match disk fm.filename with
  | none => { fm := { fm with records := [] }, disk := disk, thrown := none }
  | some content =>
    let r := loadLoop (content.length + 1) content []
    { fm := { fm with records := r.1 }, disk := disk, thrown := r.2 }

end TempCodeRunner

/-! ## Notions of the specification -/

/-- The text that holds one record in the backing file: the four fields
separated by commas and ended by a newline. -/
def recordLine (t : Transaction) : Str :=
  t.type ++ [','] ++ showDouble t.amount ++ [','] ++ t.dateTime ++ [','] ++ t.note ++ ['\n']

/-- Serialised form of a list of records: the text of each record, in order. -/
def serialize (rs : List Transaction) : Str :=
  (rs.map recordLine).flatten

/-- The record has one of the two kinds of the data model. -/
def WellKinded (t : Transaction) : Prop :=
  t.type = incomeName ∨ t.type = expenseName

instance (t : Transaction) : Decidable (WellKinded t) := by
  unfold WellKinded; infer_instance

/-- Sum of the amounts of the records of kind Income. -/
def incomeTotal (rs : List Transaction) : ℚ :=
  ((rs.filter (fun t => t.type = incomeName)).map Transaction.amount).sum

/-- Sum of the amounts of the records of kind Expense. -/
def expenseTotal (rs : List Transaction) : ℚ :=
  ((rs.filter (fun t => t.type = expenseName)).map Transaction.amount).sum

/-- Sum of the amounts of the records whose kind is not Income: the Expense
records and the records of any other kind. -/
def otherTotal (rs : List Transaction) : ℚ :=
  ((rs.filter (fun t => ¬ t.type = incomeName)).map Transaction.amount).sum

/-- A file name used in the examples. -/
def csvName : Str := "transactions.csv".toList

/-- A file system in which no file exists yet and every file can be written. -/
def noFiles : Disk := { read := fun _ => none, canWrite := fun _ => true }

/-- A timestamp as `getCurrentDateTime` formats it. -/
def stamp : Str := "2024-03-01 09:30:00".toList

/-- The ledger of the balance example: Income 100, Expense 40, Income 5. -/
def balanceLedger : FinanceManager :=
  { records := [Income 100 stamp "salary".toList, Expense 40 stamp "food".toList,
      Income 5 stamp "refund".toList],
    filename := csvName }

/-- A ledger with records built by the public constructor of the base class
`Transaction`, with the kinds `Refund` and `income`. -/
def refundLedger : FinanceManager :=
  { records := [Income 100 stamp "salary".toList,
      { type := "Refund".toList, amount := 30, dateTime := stamp, note := "shop".toList },
      { type := "income".toList, amount := 7, dateTime := stamp, note := "tip".toList }],
    filename := csvName }

/-- The entry of the listing for the record `t` at position `i`: the position,
a dot, and the display of the record. -/
def listingEntry (i : Nat) (t : Transaction) : Str :=
  Nat.toDigits 10 i ++ ". ".toList ++ t.display

/-- The message of `displayAll` on an empty ledger. -/
def noTransactionsMsg : Str := "\nNo transactions found.\n".toList

/-- The heading of the listing of `displayAll`. -/
def listingHeader : Str := "\n--- Transaction List ---\n".toList

/-- A call of one of the three members that change the ledger. -/
inductive Op where
  | load
  | add (t : Transaction)
  | remove (index : Int)

/-- The state after one call; an exception leaves the state the call had
reached and the caller goes on. -/
def step (s : FinanceManager × Disk) : Op → FinanceManager × Disk
  | Op.load => ((s.1.loadFromFile s.2).fm, (s.1.loadFromFile s.2).disk)
  | Op.add t => ((s.1.addTransaction s.2 t).fm, (s.1.addTransaction s.2 t).disk)
  | Op.remove i => ((s.1.removeTransaction s.2 i).fm, (s.1.removeTransaction s.2 i).disk)

/-- The state after a sequence of calls. -/
def run (s : FinanceManager × Disk) (ops : List Op) : FinanceManager × Disk :=
  ops.foldl step s

/-- A record that the file format can hold: its kind is Income or Expense,
its timestamp has no comma, its note has no newline, and the text written for
its amount reads back as the same amount. -/
def Storable (t : Transaction) : Prop :=
  WellKinded t ∧ ',' ∉ t.dateTime ∧ '\n' ∉ t.note
    ∧ stod (showDouble t.amount) = Except.ok (Double.finite t.amount)

/-- The characters of which the text of a rational amount is made (with the
digits above nine, which `Nat.digitChar` can give). -/
def amountChars : Str := "0123456789abcdef*.e+-".toList

/-- The amount has at most six significant decimal digits: its absolute
value is a natural number below `10 ^ 6` times a power of ten. -/
def SixDigit (a : ℚ) : Prop :=
  ∃ (m : Nat) (k : Int), m < 10 ^ 6 ∧ |a| = (m : ℚ) * (10 : ℚ) ^ k

/-- A ledger with fractional amounts and a comma in a note. -/
def receiptLedger : FinanceManager :=
  { records := [Income 1250.75 stamp "salary, March".toList, Expense 0.5 stamp "stamp".toList],
    filename := csvName }

/-- A ledger with an amount of seven significant digits. -/
def sevenDigitLedger : FinanceManager :=
  { records := [Income 1234567 stamp "salary".toList], filename := csvName }

/-- A ledger with an amount below the least normal `double`. -/
def tinyLedger : FinanceManager :=
  { records := [Income (1 / 10 ^ 310) stamp "dust".toList], filename := csvName }

/-- A ledger with a comma in a timestamp. -/
def commaStampLedger : FinanceManager :=
  { records := [Income 5 "2024-03-01, 09:30".toList "salary".toList], filename := csvName }

/-- A file system on which no file can be opened for writing (a read-only
directory); the ledger file holds an older content. -/
def readOnlyFiles : Disk :=
  { read := Function.update (fun _ => none) csvName (some "old".toList),
    canWrite := fun _ => false }

/-- A file system that holds an older ledger file, which can be written. -/
def oldFiles : Disk := noFiles.write csvName "old".toList

/-- A backing file that holds a record with a negative amount. -/
def negativeFile : Disk :=
  noFiles.write csvName "Income,-5,2024-03-01 09:30:00,refund\n".toList

/-- The signed contribution of a record to the balance: its amount for an
Income record, minus its amount for an Expense record (and for a record of any
other type, which `getBalance` counts with the expenses). -/
def signedContribution (t : Transaction) : ℚ :=
  if t.type = incomeName then t.amount else -t.amount

/-- A line of the backing file of the final version, given by the text of
its four fields. -/
structure FileLine where
  type : Str
  amount : Str
  dateTime : Str
  note : Str

/-- The text of a line: the fields separated by commas and ended by a
newline. -/
def FileLine.text (l : FileLine) : Str :=
  l.type ++ ',' :: (l.amount ++ ',' :: (l.dateTime ++ ',' :: (l.note ++ ['\n'])))

/-- A well-formed line: no field holds the character that ends it (a comma
for the first three, a newline for the note) and `stod` converts the amount
field without an exception.  The amount may be any text that `stod` reads: a
decimal or hexadecimal number in the range of `double`, `inf`, `nan`.  The
first field may hold newlines: an empty line before a record is part of the
first field of that record. -/
def FileLine.WellFormed (l : FileLine) : Prop :=
  ',' ∉ l.type ∧ ',' ∉ l.amount ∧ ',' ∉ l.dateTime ∧ '\n' ∉ l.note
    ∧ ∃ d, stod l.amount = Except.ok d

/-- The amount that `stod` reads from the amount field (zero stands in when
`stod` throws, which it does not on a well-formed line). -/
def FileLine.value (l : FileLine) : Double :=
  match stod l.amount with
  | Except.ok d => d
  | Except.error _ => Double.finite 0

/-- The record expected for a well-formed line: an Income record if the first
field is exactly `Income`, an Expense record for every other first field. -/
def FileLine.record (l : FileLine) : Ieee.Transaction :=
  { type := if l.type = incomeName then incomeName else expenseName,
    amount := l.value,
    dateTime := l.dateTime,
    note := l.note }

/-- A call of one of the three members that change the ledger, on the store
with `Double` amounts. -/
inductive Ieee.Op where
  | load
  | add (t : Ieee.Transaction)
  | remove (index : Int)

/-- The state after one call; an exception leaves the state the call had
reached and the caller goes on. -/
def Ieee.step (s : Ieee.FinanceManager × Disk) : Ieee.Op → Ieee.FinanceManager × Disk
  | Ieee.Op.load => ((s.1.loadFromFile s.2).fm, (s.1.loadFromFile s.2).disk)
  | Ieee.Op.add t => ((s.1.addTransaction s.2 t).fm, (s.1.addTransaction s.2 t).disk)
  | Ieee.Op.remove i => ((s.1.removeTransaction s.2 i).fm, (s.1.removeTransaction s.2 i).disk)

/-- The state after a sequence of calls. -/
def Ieee.run (s : Ieee.FinanceManager × Disk) (ops : List Ieee.Op) :
    Ieee.FinanceManager × Disk :=
  ops.foldl Ieee.step s

/-- Every record has an amount `> 0`. -/
def Ieee.AllPositive (rs : List Ieee.Transaction) : Prop :=
  ∀ t ∈ rs, t.amount.isPos = true

instance (rs : List Ieee.Transaction) : Decidable (Ieee.AllPositive rs) := by
  unfold Ieee.AllPositive; infer_instance

/-- The value is a NaN. -/
def Double.isNaN : Double → Bool
  | Double.nan _ => true
  | _ => false

/-- Every `loadFromFile` call of the sequence, run from state `s`, reads
records with amounts `> 0` only. -/
def Ieee.LoadsArePositive : List Ieee.Op → Ieee.FinanceManager × Disk → Prop
  | [], _ => True
  | op :: ops, s =>
    (op = Ieee.Op.load → Ieee.AllPositive (Ieee.step s op).1.records)
      ∧ Ieee.LoadsArePositive ops (Ieee.step s op)

/-- No `addTransaction` call of the sequence is given a NaN amount. -/
def Ieee.AddsAreNumbers (ops : List Ieee.Op) : Prop :=
  ∀ t, Ieee.Op.add t ∈ ops → t.amount.isNaN = false

/-- The calls of the invariant example: a load, a refused and two accepted
`addTransaction` calls (the second with an infinite amount), a load of the
file just written, and a `removeTransaction` at an invalid index. -/
def invariantOps : List Ieee.Op :=
  [Ieee.Op.load, Ieee.Op.add (Ieee.Expense (Double.finite (-3)) stamp []),
    Ieee.Op.add (Ieee.Income (Double.finite 100) stamp []),
    Ieee.Op.add (Ieee.Income (Double.inf false) stamp []), Ieee.Op.load, Ieee.Op.remove 5]

/-- A file with the kinds `Income`, `income`, the empty kind, `Refund` and
`\nIncome` (an empty line before the record), and with amounts written as a
decimal, a hexadecimal number, `inf` and `nan`. -/
def mixedKindLines : List FileLine :=
  [{ type := "Income".toList, amount := "100".toList, dateTime := stamp, note := "a".toList },
   { type := "income".toList, amount := "7.5".toList, dateTime := stamp, note := "b".toList },
   { type := [], amount := "0x10".toList, dateTime := stamp, note := "c".toList },
   { type := "Refund".toList, amount := "inf".toList, dateTime := stamp, note := "d".toList },
   { type := "\nIncome".toList, amount := "nan".toList, dateTime := stamp, note := "e".toList }]

/-- An instance of the extraction `file >> amt` for the examples: it skips
white space and reads an unsigned whole number, as `file >> amt` does on such
a text. -/
def extractWhole (s : Str) : Option (ℚ × Str) :=
  if (s.dropWhile isSpace).takeWhile Char.isDigit = [] then none
  else some ((natOfDigits ((s.dropWhile isSpace).takeWhile Char.isDigit) : ℚ),
    (s.dropWhile isSpace).dropWhile Char.isDigit)

/-- A record of the final version with its timestamp erased: a record of
`tempCodeRunnerFile.cpp`. -/
def Transaction.dropStamp (t : Transaction) : TempCodeRunner.Transaction :=
  { type := t.type, amount := t.amount, note := t.note }

/-- A record of the final version with its timestamp and note erased: a
record of `MiniProjectF.cpp`. -/
def Transaction.dropNote (t : Transaction) : MiniProjectF.Transaction :=
  { type := t.type, amount := t.amount }

namespace TempCodeRunner

/-- The text that holds one record in the backing file of
`tempCodeRunnerFile.cpp`: kind, amount and note separated by commas and ended
by a newline. -/
def recordLine (t : Transaction) : Str :=
  t.type ++ [','] ++ showDouble t.amount ++ [','] ++ t.note ++ ['\n']

/-- Serialised form of a list of records: the text of each record, in order. -/
def serialize (rs : List Transaction) : Str :=
  (rs.map recordLine).flatten

end TempCodeRunner

/-- A ledger of `tempCodeRunnerFile.cpp` with commas in its notes. -/
def tempReceiptLedger : TempCodeRunner.FinanceManager :=
  { records := [TempCodeRunner.Income 1250.75 "salary, March".toList,
      TempCodeRunner.Expense 0.5 "stamp, letter, card".toList],
    filename := "finance.csv".toList }

/-- A ledger with a newline in a note. -/
def newlineNoteLedger : FinanceManager :=
  { records := [Income 100 stamp "first\nsecond".toList], filename := csvName }

/-- A ledger of `tempCodeRunnerFile.cpp` with a newline in a note. -/
def tempNewlineNoteLedger : TempCodeRunner.FinanceManager :=
  { records := [TempCodeRunner.Income 100 "first\nsecond".toList],
    filename := "finance.csv".toList }

/-! ## Theorems -/

/-! ### Writing the file -/

theorem foldl_writeRecord (rs : List Transaction) (out : Str) :
    rs.foldl writeRecord out = out ++ serialize rs := by
  induction rs generalizing out with
  | nil => simp [serialize]
  | cons t ts ih =>
    simp only [List.foldl_cons, ih, serialize, List.map_cons, List.flatten_cons]
    simp [writeRecord, recordLine, List.append_assoc]

theorem write_read (disk : Disk) (name content : Str) (hw : disk.canWrite name = true) :
    disk.write name content name = some content := by
  simp [Disk.write, hw]

theorem write_refused (disk : Disk) (name content : Str) (hw : disk.canWrite name = false) :
    disk.write name content = disk := by
  simp [Disk.write, hw]

theorem saveToFile_file (fm : FinanceManager) (disk : Disk)
    (hw : disk.canWrite fm.filename = true) :
    fm.saveToFile disk fm.filename = some (serialize fm.records) := by
  simp [FinanceManager.saveToFile, foldl_writeRecord, write_read, hw]

/-- C2, amended: when the backing file can be written, after a successful
`addTransaction` and after a successful `removeTransaction` the file holds
exactly the serialised records of the resulting ledger, record after record
in the order of the list, and this content is the same from every file system
on which the file can be written (a complete overwrite); the record list
itself does not depend on the file system at all. -/
theorem file_matches_records (fm : FinanceManager) (disk : Disk)
    (hw : disk.canWrite fm.filename = true) :
    (∀ t, (fm.addTransaction disk t).thrown = none →
      (fm.addTransaction disk t).disk fm.filename
          = some (serialize (fm.addTransaction disk t).fm.records)
        ∧ ∀ disk2, disk2.canWrite fm.filename = true →
            (fm.addTransaction disk2 t).disk fm.filename
              = (fm.addTransaction disk t).disk fm.filename)
    ∧ (∀ i, (fm.removeTransaction disk i).thrown = none →
      (fm.removeTransaction disk i).disk fm.filename
          = some (serialize (fm.removeTransaction disk i).fm.records)
        ∧ ∀ disk2, disk2.canWrite fm.filename = true →
            (fm.removeTransaction disk2 i).disk fm.filename
              = (fm.removeTransaction disk i).disk fm.filename) := by
  constructor
  · intro t h
    unfold FinanceManager.addTransaction at h ⊢
    by_cases ha : t.amount ≤ 0
    · simp [ha] at h
    · simp only [ha, if_false]
      refine ⟨?_, fun disk2 hw2 => ?_⟩
      · exact saveToFile_file _ disk hw
      · exact (saveToFile_file (FinanceManager.mk (fm.records ++ [t]) fm.filename) disk2 hw2).trans
          (saveToFile_file (FinanceManager.mk (fm.records ++ [t]) fm.filename) disk hw).symm
  · intro i h
    unfold FinanceManager.removeTransaction at h ⊢
    by_cases hi : i < 0 ∨ toSizeT i ≥ fm.records.length
    · simp [hi] at h
    · simp only [hi, if_false]
      refine ⟨?_, fun disk2 hw2 => ?_⟩
      · exact saveToFile_file _ disk hw
      · exact (saveToFile_file (FinanceManager.mk (fm.records.eraseIdx i.toNat) fm.filename) disk2 hw2).trans
          (saveToFile_file (FinanceManager.mk (fm.records.eraseIdx i.toNat) fm.filename) disk hw).symm

/-- Witness of the amended C2: adding a record to a one-record ledger and
removing its first record, on a file system that holds an older file. -/
theorem file_matches_records_witness :
    oldFiles.canWrite csvName = true
    ∧ oldFiles csvName = some "old".toList
    ∧ ((FinanceManager.mk [Income 100 stamp []] csvName).addTransaction
        oldFiles (Expense 30 stamp [])).thrown = none
    ∧ ((FinanceManager.mk [Income 100 stamp []] csvName).addTransaction
        oldFiles (Expense 30 stamp [])).disk csvName
      = some "Income,100,2024-03-01 09:30:00,\nExpense,30,2024-03-01 09:30:00,\n".toList
    ∧ ((FinanceManager.mk [Income 100 stamp []] csvName).removeTransaction
        oldFiles 0).disk csvName
      = some [] := by
  have h := file_matches_records (FinanceManager.mk [Income 100 stamp []] csvName)
    oldFiles (by decide)
  refine ⟨by decide, by decide, by decide!, ?_, ?_⟩
  · rw [(h.1 (Expense 30 stamp []) (by decide!)).1]; decide!
  · rw [(h.2 0 (by decide!)).1]; decide!

/-- C2 as stated fails: `saveToFile` never looks at the state of its stream.
On a file system where the ledger file cannot be opened for writing,
`addTransaction` of a valid record and `removeTransaction` at a valid index
both return without an exception, the record list changes, and the file still
holds its older content, which is not the serialisation of the records. -/
theorem file_matches_records_counterexample :
    ((FinanceManager.new csvName).addTransaction readOnlyFiles (Income 100 stamp [])).thrown
        = none
    ∧ ((FinanceManager.new csvName).addTransaction readOnlyFiles
        (Income 100 stamp [])).fm.records = [Income 100 stamp []]
    ∧ ((FinanceManager.new csvName).addTransaction readOnlyFiles
        (Income 100 stamp [])).disk csvName = some "old".toList
    ∧ ((FinanceManager.new csvName).addTransaction readOnlyFiles
        (Income 100 stamp [])).disk csvName
      ≠ some (serialize ((FinanceManager.new csvName).addTransaction readOnlyFiles
          (Income 100 stamp [])).fm.records)
    ∧ ((FinanceManager.mk [Income 100 stamp []] csvName).removeTransaction
        readOnlyFiles 0).thrown = none
    ∧ ((FinanceManager.mk [Income 100 stamp []] csvName).removeTransaction
        readOnlyFiles 0).fm.records = []
    ∧ ((FinanceManager.mk [Income 100 stamp []] csvName).removeTransaction
        readOnlyFiles 0).disk csvName
      ≠ some (serialize ((FinanceManager.mk [Income 100 stamp []] csvName).removeTransaction
          readOnlyFiles 0).fm.records) := by
  refine ⟨by decide!, by decide!, by decide!, by decide!, by decide!, by decide!, by decide!⟩

/-! ### Adding a record -/

/-- C3: `addTransaction` of a record with amount `a > 0` succeeds and appends
the record: the length grows by exactly one, the new record is the last
element, and the earlier elements keep their positions. -/
theorem addTransaction_appends (fm : FinanceManager) (disk : Disk) (t : Transaction)
    (ha : 0 < t.amount) :
    (fm.addTransaction disk t).thrown = none
    ∧ (fm.addTransaction disk t).fm.records = fm.records ++ [t]
    ∧ (fm.addTransaction disk t).fm.records.length = fm.records.length + 1
    ∧ (fm.addTransaction disk t).fm.records.getLast? = some t
    ∧ ∀ j, j < fm.records.length →
        (fm.addTransaction disk t).fm.records[j]? = fm.records[j]? := by
  have hn : ¬ t.amount ≤ 0 := not_le.mpr ha
  simp only [FinanceManager.addTransaction, hn, if_false]
  refine ⟨trivial, trivial, by simp, by simp, fun j hj => ?_⟩
  exact List.getElem?_append_left hj

/-- Witness of C3: an expense of 30 added to a ledger holding one income. -/
theorem addTransaction_appends_witness :
    (0 : ℚ) < (Expense 30 stamp []).amount
    ∧ ((FinanceManager.mk [Income 100 stamp []] csvName).addTransaction noFiles
        (Expense 30 stamp [])).fm.records = [Income 100 stamp [], Expense 30 stamp []] :=
  ⟨by decide!,
   (addTransaction_appends (FinanceManager.mk [Income 100 stamp []] csvName) noFiles
      (Expense 30 stamp []) (by decide!)).2.1⟩

/-- C4: `addTransaction` throws exactly when the amount of the record is
`≤ 0`; what it throws then is `invalid_argument`, and the ledger (and the
file system) are left as they were. -/
theorem addTransaction_throws_iff (fm : FinanceManager) (disk : Disk) (t : Transaction) :
    ((fm.addTransaction disk t).thrown ≠ none ↔ t.amount ≤ 0)
    ∧ ((fm.addTransaction disk t).thrown
          = some (Exn.invalid_argument "Amount must be greater than 0") ↔ t.amount ≤ 0)
    ∧ ((fm.addTransaction disk t).thrown ≠ none →
          (fm.addTransaction disk t).fm = fm ∧ (fm.addTransaction disk t).disk = disk) := by
  by_cases ha : t.amount ≤ 0 <;> simp [FinanceManager.addTransaction, ha]

/-- Witness of C4: an amount of zero is refused and the ledger keeps its
record. -/
theorem addTransaction_throws_iff_witness :
    ((FinanceManager.mk [Income 100 stamp []] csvName).addTransaction noFiles
        (Expense 0 stamp [])).thrown ≠ none
    ∧ ((FinanceManager.mk [Income 100 stamp []] csvName).addTransaction noFiles
        (Expense 0 stamp [])).fm = FinanceManager.mk [Income 100 stamp []] csvName :=
  ⟨by decide!,
   ((addTransaction_throws_iff (FinanceManager.mk [Income 100 stamp []] csvName) noFiles
      (Expense 0 stamp [])).2.2 (by decide!)).1⟩

/-! ### Removing a record -/

theorem toSizeT_of_nonneg (i : Int) (h0 : 0 ≤ i) (h1 : i < 2 ^ 31) :
    toSizeT i = i.toNat := by
  unfold toSizeT
  rw [Int.emod_eq_of_lt h0 (by omega)]

/-- C5: for an index `i` with `0 ≤ i < n` (an `int`, so below `2 ^ 31`),
`removeTransaction i` succeeds and deletes exactly the element at position
`i`: the length is `n - 1`, positions below `i` are unchanged, and the
element formerly at `j > i` is now at `j - 1`. -/
theorem removeTransaction_erases (fm : FinanceManager) (disk : Disk) (i : Int)
    (h0 : 0 ≤ i) (hn : i < fm.records.length) (hint : i < 2 ^ 31) :
    (fm.removeTransaction disk i).thrown = none
    ∧ (fm.removeTransaction disk i).fm.records = fm.records.eraseIdx i.toNat
    ∧ (fm.removeTransaction disk i).fm.records.length = fm.records.length - 1
    ∧ (∀ j, j < i.toNat →
        (fm.removeTransaction disk i).fm.records[j]? = fm.records[j]?)
    ∧ (∀ j, i.toNat < j → j < fm.records.length →
        (fm.removeTransaction disk i).fm.records[j - 1]? = fm.records[j]?) := by
  have hs : toSizeT i = i.toNat := toSizeT_of_nonneg i h0 hint
  have hlt : i.toNat < fm.records.length := by omega
  have hc : ¬ (i < 0 ∨ toSizeT i ≥ fm.records.length) := by
    rw [hs]; omega
  simp only [FinanceManager.removeTransaction, hc, if_false]
  refine ⟨trivial, trivial, ?_, fun j hj => ?_, fun j hj hjn => ?_⟩
  · rw [List.length_eraseIdx, if_pos hlt]
  · exact List.getElem?_eraseIdx_of_lt _ _ _ hj
  · rw [List.getElem?_eraseIdx_of_ge _ _ _ (by omega)]
    congr 1
    omega

/-- Witness of C5: removing position 1 of a three-record ledger. -/
theorem removeTransaction_erases_witness :
    (0 : Int) ≤ 1 ∧ (1 : Int) < balanceLedger.records.length ∧ (1 : Int) < 2 ^ 31
    ∧ (balanceLedger.removeTransaction noFiles 1).fm.records
        = [Income 100 stamp "salary".toList, Income 5 stamp "refund".toList] := by
  refine ⟨by decide, by decide, by decide, ?_⟩
  rw [(removeTransaction_erases balanceLedger noFiles 1 (by decide) (by decide)
    (by decide)).2.1]
  decide!

/-- C6: for an `int` index `i` and a ledger of length `n`,
`removeTransaction i` throws exactly when `i` is outside `[0, n)`; what it
throws then is `out_of_range`; this covers every negative `i` and `i = n`; and
the ledger (and the file system) are left as they were. -/
theorem removeTransaction_throws_iff (fm : FinanceManager) (disk : Disk) (i : Int)
    (hint : -2 ^ 31 ≤ i ∧ i < 2 ^ 31) :
    ((fm.removeTransaction disk i).thrown ≠ none ↔ (i < 0 ∨ (fm.records.length : Int) ≤ i))
    ∧ ((fm.removeTransaction disk i).thrown = some (Exn.out_of_range "Invalid index")
          ↔ (i < 0 ∨ (fm.records.length : Int) ≤ i))
    ∧ (i < 0 → (fm.removeTransaction disk i).thrown ≠ none)
    ∧ (i = fm.records.length → (fm.removeTransaction disk i).thrown ≠ none)
    ∧ ((fm.removeTransaction disk i).thrown ≠ none →
          (fm.removeTransaction disk i).fm = fm ∧ (fm.removeTransaction disk i).disk = disk) := by
  have key : (i < 0 ∨ toSizeT i ≥ fm.records.length)
      ↔ (i < 0 ∨ (fm.records.length : Int) ≤ i) := by
    by_cases h0 : i < 0
    · simp [h0]
    · have hs : toSizeT i = i.toNat := toSizeT_of_nonneg i (by omega) hint.2
      rw [hs]
      constructor
      · rintro (h | h)
        · exact Or.inl h
        · right; omega
      · rintro (h | h)
        · exact Or.inl h
        · right; omega
  by_cases hc : i < 0 ∨ toSizeT i ≥ fm.records.length
  · have hc2 := key.mp hc
    simp [FinanceManager.removeTransaction, hc, hc2]
  · have hc2 : ¬ (i < 0 ∨ (fm.records.length : Int) ≤ i) := fun h => hc (key.mpr h)
    simp only [FinanceManager.removeTransaction, hc, if_false]
    refine ⟨by simp [hc2], by simp [hc2], ?_, ?_, by simp⟩
    · intro h; exact absurd (Or.inl h) hc2
    · intro h; exact absurd (Or.inr (le_of_eq h.symm)) hc2

/-- Witness of C6: index 3 on a ledger of three records is refused, and so is
index -1. -/
theorem removeTransaction_throws_iff_witness :
    ((-2 : Int) ^ 31 ≤ 3 ∧ (3 : Int) < 2 ^ 31)
    ∧ (balanceLedger.removeTransaction noFiles 3).thrown
        = some (Exn.out_of_range "Invalid index")
    ∧ (balanceLedger.removeTransaction noFiles (-1)).thrown ≠ none :=
  ⟨by decide,
   (removeTransaction_throws_iff balanceLedger noFiles 3 (by decide)).2.1.mpr (by decide),
   (removeTransaction_throws_iff balanceLedger noFiles (-1) (by decide)).2.2.1 (by decide)⟩

/-! ### Loading a missing file -/

/-- C9: whatever records the ledger holds, `loadFromFile` on a backing file
that cannot be opened returns without an exception and leaves the ledger
empty, so that `isEmpty` is true. -/
theorem loadFromFile_missing (fm : FinanceManager) (disk : Disk)
    (h : disk fm.filename = none) :
    (fm.loadFromFile disk).thrown = none
    ∧ (fm.loadFromFile disk).fm.records = []
    ∧ (fm.loadFromFile disk).fm.isEmpty = true
    ∧ (fm.loadFromFile disk).disk = disk := by
  simp [FinanceManager.loadFromFile, h, FinanceManager.isEmpty]

/-- Witness of C9: a ledger of three records loaded from a file system
without files. -/
theorem loadFromFile_missing_witness :
    noFiles balanceLedger.filename = none
    ∧ (balanceLedger.loadFromFile noFiles).fm.isEmpty = true :=
  ⟨rfl, (loadFromFile_missing balanceLedger noFiles rfl).2.2.1⟩

/-! ### The balance -/

theorem foldl_totals (rs : List Transaction) (acc : ℚ × ℚ) :
    rs.foldl
      (fun (acc : ℚ × ℚ) t =>
        if t.type = incomeName then (acc.1 + t.amount, acc.2)
        else (acc.1, acc.2 + t.amount)) acc
    = (acc.1 + incomeTotal rs,
       acc.2 + ((rs.filter (fun t => ¬ t.type = incomeName)).map Transaction.amount).sum) := by
  induction rs generalizing acc with
  | nil => simp [incomeTotal]
  | cons t ts ih =>
    rw [List.foldl_cons, ih]
    by_cases ht : t.type = incomeName
    · simp [ht, incomeTotal, add_assoc]
    · simp [ht, incomeTotal, add_assoc]

theorem filter_not_income (rs : List Transaction) (hk : ∀ t ∈ rs, WellKinded t) :
    rs.filter (fun t => ¬ t.type = incomeName)
      = rs.filter (fun t => t.type = expenseName) := by
  apply List.filter_congr
  intro t ht
  rcases hk t ht with h | h
  · have hne : ¬ incomeName = expenseName := by decide
    simp [h, hne]
  · have hne : ¬ expenseName = incomeName := by decide
    simp [h, hne]

/-- C7, amended: for every ledger, `getBalance` returns the sum of the
amounts of the records of kind Income minus the sum of the amounts of all
other records, whatever their kind; on a ledger whose records are all of kind
Income or Expense this is the sum of the Income amounts minus the sum of the
Expense amounts; on the ledger Income 100, Expense 40, Income 5 (whatever its
timestamps, notes and file name) it returns 65. -/
theorem getBalance_eq (fm : FinanceManager) :
    fm.getBalance = incomeTotal fm.records - otherTotal fm.records
    ∧ ((∀ t ∈ fm.records, WellKinded t) →
        fm.getBalance = incomeTotal fm.records - expenseTotal fm.records)
    ∧ ∀ (file d1 n1 d2 n2 d3 n3 : Str),
        (FinanceManager.mk [Income 100 d1 n1, Expense 40 d2 n2, Income 5 d3 n3] file).getBalance
          = 65 := by
  refine ⟨?_, ?_, ?_⟩
  · unfold FinanceManager.getBalance
    rw [foldl_totals]
    simp [otherTotal]
  · intro hk
    unfold FinanceManager.getBalance
    rw [foldl_totals, filter_not_income fm.records hk]
    simp [expenseTotal]
  · intro file d1 n1 d2 n2 d3 n3
    have h1 : ¬ expenseName = incomeName := by decide
    simp only [FinanceManager.getBalance, Income, Expense, List.foldl_cons, List.foldl_nil,
      h1, if_true, if_false]
    norm_num

/-- Witness of the amended C7: the ledger Income 100, Expense 40, Income 5. -/
theorem getBalance_eq_witness :
    (∀ t ∈ balanceLedger.records, WellKinded t)
    ∧ balanceLedger.getBalance
        = incomeTotal balanceLedger.records - expenseTotal balanceLedger.records
    ∧ balanceLedger.getBalance = 65 :=
  ⟨by decide, (getBalance_eq balanceLedger).2.1 (by decide),
   (getBalance_eq balanceLedger).2.2 csvName stamp "salary".toList stamp
      "food".toList stamp "refund".toList⟩

/-- C7 as stated fails: `addTransaction` accepts records of any kind, and
`getBalance` subtracts every amount whose kind is not exactly `Income`.  The
ledger Income 100, Refund 30, income 7 is built by three successful
`addTransaction` calls; it holds one record of kind Income (100) and none of
kind Expense, so the claimed value is 100, and `getBalance` returns 63. -/
theorem getBalance_counterexample :
    (run (FinanceManager.new csvName, noFiles)
        (refundLedger.records.map Op.add)).1 = refundLedger
    ∧ incomeTotal refundLedger.records - expenseTotal refundLedger.records = 100
    ∧ refundLedger.getBalance = 63
    ∧ refundLedger.getBalance
        ≠ incomeTotal refundLedger.records - expenseTotal refundLedger.records := by
  refine ⟨by decide!, by decide!, by decide!, by decide!⟩

/-! ### The listing -/

theorem displayFrom_eq (rs : List Transaction) (i : Nat) :
    displayFrom i rs = ((rs.enumFrom i).map (fun p => listingEntry p.1 p.2)).flatten := by
  induction rs generalizing i with
  | nil => simp [displayFrom]
  | cons t ts ih =>
    simp [displayFrom, ih, listingEntry, List.enumFrom_cons, List.append_assoc]

/-- C10: the listing of a ledger that holds records is the heading followed
by one entry per record, in the order of the list, the entry of `records[i]`
carrying the position `i`; that position is the index with which
`removeTransaction` deletes this very record; the message for an empty ledger
is shown exactly when there are no records.  Starting empty, adding an income
of 100 and then an expense of 30 lists them in this order, and after
`removeTransaction 0` the listing is the expense alone. -/
theorem displayAll_lists_records (fm : FinanceManager) (disk : Disk) :
    (fm.records ≠ [] →
      fm.displayAll
        = listingHeader ++ (fm.records.enum.map (fun p => listingEntry p.1 p.2)).flatten)
    ∧ (∀ (i : Nat) (t : Transaction), fm.records[i]? = some t → i < 2 ^ 31 →
        (fm.records.enum.map (fun p => listingEntry p.1 p.2))[i]? = some (listingEntry i t)
        ∧ (fm.removeTransaction disk i).thrown = none
        ∧ (fm.removeTransaction disk i).fm.records
            = fm.records.take i ++ fm.records.drop (i + 1))
    ∧ (fm.displayAll = noTransactionsMsg ↔ fm.records = [])
    ∧ (∀ (file d1 n1 d2 n2 : Str),
        (run (FinanceManager.new file, disk)
            [Op.add (Income 100 d1 n1), Op.add (Expense 30 d2 n2)]).1.records
          = [Income 100 d1 n1, Expense 30 d2 n2]
        ∧ (run (FinanceManager.new file, disk)
            [Op.add (Income 100 d1 n1), Op.add (Expense 30 d2 n2)]).1.displayAll
          = listingHeader ++ "0. Income : 100  |  ".toList ++ d1 ++ "  |  Note: ".toList ++ n1
              ++ "\n1. Expense : 30  |  ".toList ++ d2 ++ "  |  Note: ".toList ++ n2 ++ ['\n']
        ∧ (run (FinanceManager.new file, disk)
            [Op.add (Income 100 d1 n1), Op.add (Expense 30 d2 n2), Op.remove 0]).1.records
          = [Expense 30 d2 n2]
        ∧ (run (FinanceManager.new file, disk)
            [Op.add (Income 100 d1 n1), Op.add (Expense 30 d2 n2), Op.remove 0]).1.displayAll
          = listingHeader ++ "0. Expense : 30  |  ".toList ++ d2 ++ "  |  Note: ".toList ++ n2
              ++ ['\n']) := by
  refine ⟨?_, ?_, ?_, ?_⟩
  · intro hne
    have : fm.records.isEmpty = false := by
      cases h : fm.records with
      | nil => exact absurd h hne
      | cons _ _ => rfl
    simp [FinanceManager.displayAll, this, displayFrom_eq, listingHeader, List.enum]
  · intro i t hit hint
    have hlt : i < fm.records.length := by
      rcases List.getElem?_eq_some.mp hit with ⟨h, _⟩
      exact h
    refine ⟨?_, ?_, ?_⟩
    · simp [List.getElem?_map, List.enum, List.getElem?_enumFrom, hit]
    · have hs : toSizeT (i : Int) = i := by
        have := toSizeT_of_nonneg (i : Int) (by omega) (by exact_mod_cast hint)
        simpa using this
      have hc : ¬ ((i : Int) < 0 ∨ toSizeT (i : Int) ≥ fm.records.length) := by
        rw [hs]; omega
      simp [FinanceManager.removeTransaction, hc]
    · have hs : toSizeT (i : Int) = i := by
        have := toSizeT_of_nonneg (i : Int) (by omega) (by exact_mod_cast hint)
        simpa using this
      have hc : ¬ ((i : Int) < 0 ∨ toSizeT (i : Int) ≥ fm.records.length) := by
        rw [hs]; omega
      simp [FinanceManager.removeTransaction, hc, List.eraseIdx_eq_take_drop_succ]
  · cases h : fm.records with
    | nil => simp [FinanceManager.displayAll, h, noTransactionsMsg]
    | cons t ts =>
      simp only [FinanceManager.displayAll, h, List.isEmpty_cons, noTransactionsMsg]
      simp
  · intro file d1 n1 d2 n2
    have h100 : ¬ (100 : ℚ) ≤ 0 := by norm_num
    have h30 : ¬ (30 : ℚ) ≤ 0 := by norm_num
    have s100 : showDouble 100 = "100".toList := by decide
    have s30 : showDouble 30 = "30".toList := by decide
    have t0 : Nat.toDigits 10 0 = ['0'] := by decide
    have t1 : Nat.toDigits 10 1 = ['1'] := by decide
    simp [run, step, FinanceManager.addTransaction, FinanceManager.new,
      FinanceManager.removeTransaction, FinanceManager.displayAll, Income, Expense, h100, h30,
      displayFrom, Transaction.display, s100, s30, t0, t1, toSizeT, listingHeader, incomeName,
      expenseName]

/-- Witness of C10: the entry at position 1 of the ledger Income 100,
Expense 40, Income 5, and the removal of that position. -/
theorem displayAll_lists_records_witness :
    balanceLedger.records ≠ []
    ∧ balanceLedger.records[1]? = some (Expense 40 stamp "food".toList)
    ∧ balanceLedger.displayAll
        = listingHeader
          ++ (balanceLedger.records.enum.map (fun p => listingEntry p.1 p.2)).flatten
    ∧ (balanceLedger.records.enum.map (fun p => listingEntry p.1 p.2))[1]?
        = some "1. Expense : 40  |  2024-03-01 09:30:00  |  Note: food\n".toList
    ∧ (balanceLedger.removeTransaction noFiles (1 : Nat)).fm.records
        = [Income 100 stamp "salary".toList, Income 5 stamp "refund".toList] := by
  have h := displayAll_lists_records balanceLedger noFiles
  have h1 := h.2.1 1 (Expense 40 stamp "food".toList) (by decide!) (by decide)
  refine ⟨by decide!, by decide!, h.1 (by decide!), ?_, ?_⟩
  · rw [h1.1]; decide!
  · rw [h1.2.2]; decide!

/-! ### Reading fields -/

theorem getline_field (delim : Char) (field rest : Str) (h : delim ∉ field) :
    getline delim (field ++ delim :: rest) = some (field, rest) := by
  induction field with
  | nil => simp [getline]
  | cons c cs ih =>
    have hc : ¬ c = delim := fun e => h (by simp [e])
    have hcs : delim ∉ cs := fun e => h (List.mem_cons_of_mem _ e)
    simp [getline, hc, ih hcs]

theorem getline_length (delim : Char) (input field rest : Str)
    (h : getline delim input = some (field, rest)) : rest.length < input.length := by
  induction input generalizing field rest with
  | nil => simp [getline] at h
  | cons c cs ih =>
    unfold getline at h
    by_cases hc : c = delim
    · simp only [hc, if_true, Option.some.injEq, Prod.mk.injEq] at h
      rw [← h.2]; simp
    · simp only [hc, if_false] at h
      cases hg : getline delim cs with
      | none =>
        rw [hg] at h
        simp only [Option.some.injEq, Prod.mk.injEq] at h
        rw [← h.2]; simp
      | some p =>
        rw [hg] at h
        simp only [Option.some.injEq, Prod.mk.injEq] at h
        have := ih p.1 p.2 (by rw [hg])
        rw [← h.2]
        simp only [List.length_cons]
        omega

theorem readFields_length (input type amtStr dt nt rest : Str)
    (h : readFields input = some (type, amtStr, dt, nt, rest)) :
    rest.length < input.length := by
  unfold readFields at h
  cases hg1 : getline ',' input with
  | none => simp [hg1] at h
  | some p1 =>
    obtain ⟨f1, in1⟩ := p1
    simp only [hg1] at h
    cases hg2 : getline ',' in1 with
    | none => simp [hg2] at h
    | some p2 =>
      obtain ⟨f2, in2⟩ := p2
      simp only [hg2] at h
      cases hg3 : getline ',' in2 with
      | none => simp [hg3] at h
      | some p3 =>
        obtain ⟨f3, in3⟩ := p3
        simp only [hg3] at h
        cases hg4 : getline '\n' in3 with
        | none => simp [hg4] at h
        | some p4 =>
          obtain ⟨f4, in4⟩ := p4
          simp only [hg4, Option.some.injEq, Prod.mk.injEq] at h
          have l1 := getline_length _ _ _ _ hg1
          have l2 := getline_length _ _ _ _ hg2
          have l3 := getline_length _ _ _ _ hg3
          have l4 := getline_length _ _ _ _ hg4
          rw [← h.2.2.2.2]
          omega

/-- Fuel above the length of the input is never used up: the loop of
`loadFromFile` gives the same result with any larger fuel. -/
theorem loadLoop_fuel (fuel1 fuel2 : Nat) (input : Str) (acc : List Transaction)
    (h1 : input.length < fuel1) (h2 : input.length < fuel2) :
    loadLoop fuel1 input acc = loadLoop fuel2 input acc := by
  induction fuel1 generalizing fuel2 input acc with
  | zero => omega
  | succ f1 ih =>
    cases fuel2 with
    | zero => omega
    | succ f2 =>
      unfold loadLoop
      cases hr : readFields input with
      | none => rfl
      | some p =>
        obtain ⟨type, amtStr, dt, nt, rest⟩ := p
        have hl := readFields_length _ _ _ _ _ _ hr
        simp only
        cases stod amtStr with
        | error e => rfl
        | ok d =>
          simp only
          cases d.exact with
          | none => rfl
          | some amt =>
            simp only
            rw [ih f2 rest _ (by omega) (by omega), ih f2 rest _ (by omega) (by omega)]

/-! ### Saving and loading again -/

theorem readFields_recordLine (t : Transaction) (rest : Str)
    (h1 : ',' ∉ t.type) (h2 : ',' ∉ showDouble t.amount) (h3 : ',' ∉ t.dateTime)
    (h4 : '\n' ∉ t.note) :
    readFields (recordLine t ++ rest)
      = some (t.type, showDouble t.amount, t.dateTime, t.note, rest) := by
  have e : recordLine t ++ rest
      = t.type ++ ',' :: (showDouble t.amount ++ ',' :: (t.dateTime ++ ',' ::
          (t.note ++ '\n' :: rest))) := by
    simp [recordLine, List.append_assoc]
  rw [e]
  unfold readFields
  rw [getline_field _ _ _ h1]
  simp only
  rw [getline_field _ _ _ h2]
  simp only
  rw [getline_field _ _ _ h3]
  simp only
  rw [getline_field _ _ _ h4]

/-! ### The characters of the text of an amount -/

theorem digitChar_mem (d : Nat) : Nat.digitChar d ∈ amountChars := by
  by_cases h : d < 16
  · interval_cases d <;> decide
  · have e : Nat.digitChar d = '*' := by
      unfold Nat.digitChar
      simp only [show ¬ d = 0 by omega, show ¬ d = 1 by omega, show ¬ d = 2 by omega,
        show ¬ d = 3 by omega, show ¬ d = 4 by omega, show ¬ d = 5 by omega,
        show ¬ d = 6 by omega, show ¬ d = 7 by omega, show ¬ d = 8 by omega,
        show ¬ d = 9 by omega, show ¬ d = 10 by omega, show ¬ d = 11 by omega,
        show ¬ d = 12 by omega, show ¬ d = 13 by omega, show ¬ d = 14 by omega,
        show ¬ d = 15 by omega, if_false]
    rw [e]; decide

theorem digitsFixed_chars (k n : Nat) : ∀ c ∈ digitsFixed k n, c ∈ amountChars := by
  induction k generalizing n with
  | zero => simp [digitsFixed]
  | succ k ih =>
    intro c hc
    simp only [digitsFixed, List.mem_append, List.mem_singleton] at hc
    rcases hc with hc | hc
    · exact ih _ c hc
    · rw [hc]; exact digitChar_mem _

theorem toDigitsCore_chars (fuel n : Nat) (acc : Str) (h : ∀ c ∈ acc, c ∈ amountChars) :
    ∀ c ∈ Nat.toDigitsCore 10 fuel n acc, c ∈ amountChars := by
  induction fuel generalizing n acc with
  | zero => simpa [Nat.toDigitsCore] using h
  | succ f ih =>
    have hc : ∀ c ∈ Nat.digitChar (n % 10) :: acc, c ∈ amountChars := by
      intro c hc
      rcases List.mem_cons.mp hc with hc | hc
      · rw [hc]; exact digitChar_mem _
      · exact h c hc
    unfold Nat.toDigitsCore
    simp only
    split_ifs
    · exact hc
    · exact ih _ _ hc

theorem toDigits_chars (n : Nat) : ∀ c ∈ Nat.toDigits 10 n, c ∈ amountChars :=
  toDigitsCore_chars _ _ _ (by simp)

theorem mem_stripZeros (c : Char) (s : Str) (h : c ∈ stripZeros s) : c ∈ s := by
  unfold stripZeros at h
  rw [List.mem_reverse] at h
  exact List.mem_reverse.mp ((List.dropWhile_sublist _).subset h)

theorem showFrac_chars (s : Str) (h : ∀ c ∈ s, c ∈ amountChars) :
    ∀ c ∈ showFrac s, c ∈ amountChars := by
  unfold showFrac
  split_ifs
  · simp
  · intro c hc
    rcases List.mem_cons.mp hc with hc | hc
    · rw [hc]; decide
    · exact h c hc

theorem showExp_chars (x : Int) : ∀ c ∈ showExp x, c ∈ amountChars := by
  have h := toDigits_chars x.natAbs
  have hcons : ∀ (d : Char) (t : Str), d ∈ amountChars → (∀ c ∈ t, c ∈ amountChars) →
      ∀ c ∈ d :: t, c ∈ amountChars := by
    intro d t hd ht c hc
    rcases List.mem_cons.mp hc with hc | hc
    · rw [hc]; exact hd
    · exact ht c hc
  unfold showExp
  split_ifs
  · exact hcons _ _ (by decide) (hcons _ _ (by decide) h)
  · exact hcons _ _ (by decide) h
  · exact hcons _ _ (by decide) (hcons _ _ (by decide) h)
  · exact hcons _ _ (by decide) h

theorem showPos_chars (n d : Nat) : ∀ c ∈ showPos n d, c ∈ amountChars := by
  have hd := digitsFixed_chars 6 (sixDigits n d).1
  have hfrac : ∀ k, ∀ c ∈ showFrac (stripZeros ((digitsFixed 6 (sixDigits n d).1).drop k)),
      c ∈ amountChars := fun k =>
    showFrac_chars _ (fun c hc => hd c (List.mem_of_mem_drop (mem_stripZeros _ _ hc)))
  unfold showPos
  simp only
  intro c hc
  split_ifs at hc
  · simp only [List.mem_append, List.mem_cons] at hc
    rcases hc with (hc | hc) | hc | hc
    · exact hd c (List.mem_of_mem_take hc)
    · exact hfrac _ c hc
    · rw [hc]; decide
    · exact showExp_chars _ c hc
  · simp only [List.mem_append] at hc
    rcases hc with hc | hc
    · exact hd c (List.mem_of_mem_take hc)
    · exact hfrac _ c hc
  · rcases List.mem_cons.mp hc with hc | hc
    · rw [hc]; decide
    · refine showFrac_chars _ (fun e he => ?_) c hc
      have h2 := mem_stripZeros _ _ he
      rw [List.mem_append] at h2
      rcases h2 with h2 | h2
      · rw [List.eq_of_mem_replicate h2]; decide
      · exact hd e h2

/-- The text written for a rational amount is made of digits, a point, an
exponent mark and signs. -/
theorem showDouble_chars (a : ℚ) : ∀ c ∈ showDouble a, c ∈ amountChars := by
  unfold showDouble
  intro c hc
  split_ifs at hc
  · rw [List.mem_singleton.mp hc]; decide
  · rcases List.mem_cons.mp hc with hc | hc
    · rw [hc]; decide
    · exact showPos_chars _ _ c hc
  · exact showPos_chars _ _ c hc

/-- The text written for an amount never holds a comma. -/
theorem showDouble_noComma (a : ℚ) : ',' ∉ showDouble a :=
  fun h => absurd (showDouble_chars a _ h) (by decide)

/-! ### Digit strings -/

theorem digitChar_digit (d : Nat) (h : d < 10) :
    (Nat.digitChar d).isDigit = true ∧ (Nat.digitChar d).toNat - 48 = d := by
  interval_cases d <;> exact ⟨by decide, by decide⟩

theorem foldl_digits (t : Str) (a : Nat) :
    t.foldl (fun n c => 10 * n + (c.toNat - 48)) a = a * 10 ^ t.length + natOfDigits t := by
  induction t generalizing a with
  | nil => simp [natOfDigits]
  | cons c cs ih =>
    simp only [List.foldl_cons, natOfDigits, List.length_cons]
    rw [ih, ih (10 * 0 + (c.toNat - 48))]
    simp only [natOfDigits]
    ring

theorem natOfDigits_append (s t : Str) :
    natOfDigits (s ++ t) = natOfDigits s * 10 ^ t.length + natOfDigits t := by
  unfold natOfDigits
  rw [List.foldl_append, foldl_digits]
  rfl

theorem natOfDigits_replicate (z : Nat) : natOfDigits (List.replicate z '0') = 0 := by
  induction z with
  | zero => rfl
  | succ z ih =>
    rw [List.replicate_succ', natOfDigits_append, ih]
    rfl

theorem digitsFixed_length (k n : Nat) : (digitsFixed k n).length = k := by
  induction k generalizing n with
  | zero => rfl
  | succ k ih => simp [digitsFixed, ih]

theorem digitsFixed_isDigit (k n : Nat) : ∀ c ∈ digitsFixed k n, c.isDigit = true := by
  induction k generalizing n with
  | zero => simp [digitsFixed]
  | succ k ih =>
    intro c hc
    simp only [digitsFixed, List.mem_append, List.mem_singleton] at hc
    rcases hc with hc | hc
    · exact ih _ c hc
    · rw [hc]; exact (digitChar_digit _ (Nat.mod_lt _ (by decide))).1

theorem natOfDigits_digitsFixed (k n : Nat) : natOfDigits (digitsFixed k n) = n % 10 ^ k := by
  induction k generalizing n with
  | zero => simp [digitsFixed, natOfDigits, Nat.mod_one]
  | succ k ih =>
    simp only [digitsFixed]
    rw [natOfDigits_append, ih]
    have h1 : natOfDigits [Nat.digitChar (n % 10)] = n % 10 := by
      have := (digitChar_digit (n % 10) (Nat.mod_lt _ (by decide))).2
      simp [natOfDigits, this]
    rw [h1]
    simp only [List.length_singleton, pow_one]
    have h2 : n % 10 ^ (k + 1) = n % 10 + 10 * (n / 10 % 10 ^ k) := by
      rw [pow_succ', Nat.mod_mul]
    omega

theorem stripZeros_split (s : Str) :
    ∃ z, s = stripZeros s ++ List.replicate z '0' := by
  refine ⟨(s.reverse.takeWhile (fun c => c == '0')).length, ?_⟩
  have h := List.takeWhile_append_dropWhile (fun c => c == '0') s.reverse
  have hz : (s.reverse.takeWhile (fun c => c == '0')).reverse
      = List.replicate (s.reverse.takeWhile (fun c => c == '0')).length '0' := by
    rw [List.eq_replicate_iff]
    refine ⟨by simp, fun b hb => ?_⟩
    have := List.mem_takeWhile_imp (List.mem_reverse.mp hb)
    simpa using this
  calc s = s.reverse.reverse := (List.reverse_reverse s).symm
    _ = (s.reverse.takeWhile (fun c => c == '0')
          ++ s.reverse.dropWhile (fun c => c == '0')).reverse := by rw [h]
    _ = stripZeros s ++ List.replicate _ '0' := by
      rw [List.reverse_append, hz]; rfl

theorem stripZeros_isDigit (s : Str) (h : ∀ c ∈ s, c.isDigit = true) :
    ∀ c ∈ stripZeros s, c.isDigit = true :=
  fun c hc => h c (mem_stripZeros c s hc)

theorem toDigitsCore_digits (fuel n : Nat) (acc : Str) (h : n < fuel) :
    ∃ s, Nat.toDigitsCore 10 fuel n acc = s ++ acc ∧ (∀ c ∈ s, c.isDigit = true)
      ∧ natOfDigits s = n := by
  induction fuel generalizing n acc with
  | zero => omega
  | succ f ih =>
    have hd := digitChar_digit (n % 10) (Nat.mod_lt _ (by decide))
    unfold Nat.toDigitsCore
    simp only
    by_cases h0 : n / 10 = 0
    · rw [if_pos h0]
      refine ⟨[Nat.digitChar (n % 10)], rfl, by simpa using hd.1, ?_⟩
      simp only [natOfDigits, List.foldl_cons, List.foldl_nil, hd.2]
      omega
    · rw [if_neg h0]
      obtain ⟨s, hs, hdig, hval⟩ := ih (n / 10) (Nat.digitChar (n % 10) :: acc) (by omega)
      refine ⟨s ++ [Nat.digitChar (n % 10)], by simp [hs], ?_, ?_⟩
      · intro c hc
        rcases List.mem_append.mp hc with hc | hc
        · exact hdig c hc
        · rw [List.mem_singleton.mp hc]; exact hd.1
      · rw [natOfDigits_append, hval]
        simp only [natOfDigits, List.foldl_cons, List.foldl_nil, hd.2, List.length_singleton]
        omega

theorem toDigits_digits (n : Nat) :
    (∀ c ∈ Nat.toDigits 10 n, c.isDigit = true) ∧ natOfDigits (Nat.toDigits 10 n) = n := by
  obtain ⟨s, hs, hdig, hval⟩ := toDigitsCore_digits (n + 1) n [] (by omega)
  have e : Nat.toDigits 10 n = s := by
    unfold Nat.toDigits
    rw [hs, List.append_nil]
  rw [e]
  exact ⟨hdig, hval⟩

/-! ### Reading a number back -/

theorem isDigit_not_mark (c : Char) (h : c.isDigit = true) :
    isSpace c = false ∧ c ≠ '-' ∧ c ≠ '+' ∧ c ≠ '.' ∧ c ≠ 'e' := by
  refine ⟨?_, ?_, ?_, ?_, ?_⟩
  · cases hs : isSpace c with
    | false => rfl
    | true =>
      exfalso
      simp only [isSpace, Bool.or_eq_true, beq_iff_eq] at hs
      rcases hs with ((((hs | hs) | hs) | hs) | hs) | hs <;> rw [hs] at h <;> exact absurd h (by decide)
  all_goals
    intro e
    rw [e] at h
    exact absurd h (by decide)

theorem takeWhile_digits (ds tail : Str) (hds : ∀ c ∈ ds, c.isDigit = true)
    (ht : ∀ c, tail.head? = some c → c.isDigit = false) :
    (ds ++ tail).takeWhile Char.isDigit = ds ∧ (ds ++ tail).dropWhile Char.isDigit = tail := by
  have h1 : tail.takeWhile Char.isDigit = [] ∧ tail.dropWhile Char.isDigit = tail := by
    cases tail with
    | nil => exact ⟨rfl, rfl⟩
    | cons c cs =>
      have := ht c rfl
      simp [List.takeWhile, List.dropWhile, this]
  rw [List.takeWhile_append_of_pos hds, List.dropWhile_append_of_pos hds, h1.1, h1.2]
  simp

theorem parseExp_showExp (x : Int) : parseExp ('e' :: showExp x) = x := by
  have hd := toDigits_digits x.natAbs
  have hbody : ∀ body : Str, (∀ c ∈ body, c.isDigit = true) →
      body.takeWhile Char.isDigit = body := fun body hb => by
    have := (takeWhile_digits body [] hb (by simp)).1
    simpa using this
  have hz : (∀ c ∈ '0' :: Nat.toDigits 10 x.natAbs, c.isDigit = true)
      ∧ natOfDigits ('0' :: Nat.toDigits 10 x.natAbs) = x.natAbs := by
    constructor
    · intro c hc
      rcases List.mem_cons.mp hc with hc | hc
      · rw [hc]; decide
      · exact hd.1 c hc
    · have := natOfDigits_append ['0'] (Nat.toDigits 10 x.natAbs)
      simp only [List.singleton_append] at this
      rw [this, hd.2]
      simp [natOfDigits]
  unfold showExp parseExp
  by_cases hx : x < 0
  · by_cases h10 : x.natAbs < 10
    · simp only [hx, h10, if_true, true_or]
      rw [hbody _ hz.1, hz.2]; omega
    · simp only [hx, h10, if_true, if_false, true_or]
      rw [hbody _ hd.1, hd.2]; omega
  · by_cases h10 : x.natAbs < 10
    · simp only [hx, h10, if_true, if_false, true_or]
      rw [hbody _ hz.1, hz.2]; omega
    · simp only [hx, h10, if_true, if_false, true_or]
      rw [hbody _ hd.1, hd.2]; omega

theorem stodUnsigned_decimal (ip fp tail : Str) (hip : ∀ c ∈ ip, c.isDigit = true)
    (hfp : ∀ c ∈ fp, c.isDigit = true) (ht : tail = [] ∨ ∃ rest, tail = 'e' :: rest) :
    stodUnsigned (ip ++ showFrac fp ++ tail) = decimalValue ip fp tail := by
  have htail : ∀ c, tail.head? = some c → c.isDigit = false := by
    intro c hc
    rcases ht with ht | ⟨rest, ht⟩
    · rw [ht] at hc; simp at hc
    · rw [ht] at hc
      simp only [List.head?_cons, Option.some.injEq] at hc
      rw [← hc]; decide
  unfold stodUnsigned
  by_cases hf : fp = []
  · have e : ip ++ showFrac fp ++ tail = ip ++ tail := by simp [showFrac, hf]
    rw [e, (takeWhile_digits ip tail hip htail).1, (takeWhile_digits ip tail hip htail).2, hf]
    rcases ht with ht | ⟨rest, ht⟩
    · rw [ht]
    · rw [ht]
      split
      · rename_i heq
        simp only [List.cons.injEq] at heq
        exact absurd heq.1 (by decide)
      · rfl
  · have e : ip ++ showFrac fp ++ tail = ip ++ ('.' :: (fp ++ tail)) := by
      simp [showFrac, hf]
    have hdot : ∀ c, ('.' :: (fp ++ tail)).head? = some c → c.isDigit = false := by
      intro c hc
      simp only [List.head?_cons, Option.some.injEq] at hc
      rw [← hc]; decide
    rw [e, (takeWhile_digits ip _ hip hdot).1, (takeWhile_digits ip _ hip hdot).2]
    simp only
    rw [(takeWhile_digits fp tail hfp htail).1, (takeWhile_digits fp tail hfp htail).2]

theorem startsWithWord_digit (w : Char) (ws : Str) (c : Char) (cs : Str)
    (h : c.isDigit = true) (hw : w.isDigit = false) (hu : w.toUpper.isDigit = false) :
    startsWithWord (w :: ws) (c :: cs) = false := by
  have h1 : (c == w) = false := by
    rw [beq_eq_false_iff_ne]
    intro e
    rw [e, hw] at h
    exact absurd h (by decide)
  have h2 : (c == w.toUpper) = false := by
    rw [beq_eq_false_iff_ne]
    intro e
    rw [e, hu] at h
    exact absurd h (by decide)
  simp [startsWithWord, sameLetter, h1, h2]

/-- A text that starts with a digit and holds no `x` is read as a decimal
number. -/
theorem strtodUnsigned_digit (c : Char) (cs : Str) (h : c.isDigit = true)
    (hx : 'x' ∉ cs) (hX : 'X' ∉ cs) :
    strtodUnsigned (c :: cs) = (stodUnsigned (c :: cs)).map Magnitude.value := by
  unfold strtodUnsigned
  rw [if_neg (by rw [show "inf".toList = 'i' :: "nf".toList from rfl,
      startsWithWord_digit _ _ c cs h (by decide) (by decide)]; decide),
    if_neg (by rw [show "nan".toList = 'n' :: "an".toList from rfl,
      startsWithWord_digit _ _ c cs h (by decide) (by decide)]; decide)]
  split
  · rename_i x t heq
    simp only [List.cons.injEq] at heq
    have hx2 : ¬ (x = 'x' ∨ x = 'X') := by
      rintro (e | e)
      · exact hx (by rw [heq.2, e]; exact List.mem_cons_self _ _)
      · exact hX (by rw [heq.2, e]; exact List.mem_cons_self _ _)
    rw [if_neg hx2]
  · rfl

theorem stod_digit_head (c : Char) (cs : Str) (h : c.isDigit = true) :
    stod (c :: cs) = stodResult false (strtodUnsigned (c :: cs)) := by
  obtain ⟨h1, h2, h3, _, _⟩ := isDigit_not_mark c h
  unfold stod
  rw [List.dropWhile_cons_of_neg (by simp [h1])]
  split
  · rename_i heq; simp only [List.cons.injEq] at heq; exact absurd heq.1 h2
  · rename_i heq; simp only [List.cons.injEq] at heq; exact absurd heq.1 h3
  · rfl

theorem stod_minus (cs : Str) :
    stod ('-' :: cs) = stodResult true (strtodUnsigned cs) := by
  unfold stod
  rw [List.dropWhile_cons_of_neg (by decide)]
  split
  · rename_i heq
    simp only [List.cons.injEq] at heq
    rw [heq.2]
  · rename_i heq
    simp only [List.cons.injEq] at heq
    exact absurd heq.1 (by decide)
  · rename_i hne _
    exact absurd rfl (hne _)

/-- A positive value in the range of `double` is the result of `stod`, with
the sign that was read. -/
theorem stodResult_value (negative : Bool) (v : ℚ) (hv : 0 < v) (hr : InDoubleRange v) :
    stodResult negative (some (Magnitude.value v))
      = Except.ok (Double.finite (if negative then -v else v)) := by
  have habs : |v| = v := abs_of_pos hv
  have hpos : (0 : ℚ) < 1 / (2 : ℚ) ^ 1076 := by positivity
  have hrange : ¬ (overflows v ∨ underflows v) := by
    rcases hr with h0 | ⟨hlo, hhi⟩
    · exact absurd h0 (ne_of_gt hv)
    · rintro (ho | hu)
      · exact absurd ho (not_le.mpr hhi)
      · have h2 := hu.2.1
        generalize 1 / (2 : ℚ) ^ 1022 = lo at hlo h2
        generalize 1 / (2 : ℚ) ^ 1076 = tiny at hpos h2
        linarith
  simp only [stodResult]
  rw [if_neg hrange, if_neg (ne_of_gt hv)]

/-! ### Six significant digits -/

theorem expUp_spec (fuel n d : Nat) (hd : 0 < d) (hle : d ≤ n) (hf : n < d * 10 ^ fuel) :
    d * 10 ^ expUp fuel n d ≤ n ∧ n < d * 10 ^ (expUp fuel n d + 1) := by
  induction fuel generalizing d with
  | zero => simp at hf; omega
  | succ f ih =>
    unfold expUp
    by_cases h : n < 10 * d
    · simp only [h, if_true, pow_zero, mul_one, zero_add, pow_one]
      exact ⟨hle, by omega⟩
    · simp only [h, if_false]
      have := ih (10 * d) (by omega) (by omega) (by rw [pow_succ] at hf; linarith)
      constructor
      · calc d * 10 ^ (expUp f n (10 * d) + 1) = 10 * d * 10 ^ expUp f n (10 * d) := by ring
          _ ≤ n := this.1
      · calc n < 10 * d * 10 ^ (expUp f n (10 * d) + 1) := this.2
          _ = d * 10 ^ (expUp f n (10 * d) + 1 + 1) := by ring

theorem expDown_spec (fuel n d : Nat) (hn : 0 < n) (hlt : n < d) (hf : d ≤ n * 10 ^ fuel) :
    n * 10 ^ expDown fuel n d < 10 * d ∧ d ≤ n * 10 ^ expDown fuel n d := by
  induction fuel generalizing n with
  | zero => simp at hf; omega
  | succ f ih =>
    unfold expDown
    by_cases h : d ≤ 10 * n
    · simp only [h, if_true, pow_one]
      exact ⟨by omega, by omega⟩
    · simp only [h, if_false]
      have := ih (10 * n) (by omega) (by omega) (by rw [pow_succ] at hf; linarith)
      constructor
      · calc n * 10 ^ (expDown f (10 * n) d + 1) = 10 * n * 10 ^ expDown f (10 * n) d := by ring
          _ < 10 * d := this.1
      · calc d ≤ 10 * n * 10 ^ expDown f (10 * n) d := this.2
          _ = n * 10 ^ (expDown f (10 * n) d + 1) := by ring

/-- The decimal exponent found by `decExp` brackets the value. -/
theorem decExp_spec (n d : Nat) (hn : 0 < n) (hd : 0 < d) :
    (10 : ℚ) ^ decExp n d ≤ (n : ℚ) / d ∧ (n : ℚ) / d < (10 : ℚ) ^ (decExp n d + 1) := by
  have hdq : (0 : ℚ) < d := by exact_mod_cast hd
  unfold decExp
  by_cases h : d ≤ n
  · simp only [h, if_true]
    have hfuel : n < d * 10 ^ n := by
      calc n < 10 ^ n := Nat.lt_pow_self (by decide) n
        _ ≤ d * 10 ^ n := Nat.le_mul_of_pos_left _ hd
    obtain ⟨h1, h2⟩ := expUp_spec n n d hd h hfuel
    have h1q : (d : ℚ) * 10 ^ expUp n n d ≤ n := by exact_mod_cast h1
    have h2q : (n : ℚ) < d * 10 ^ (expUp n n d + 1) := by exact_mod_cast h2
    constructor
    · rw [zpow_natCast, le_div_iff₀ hdq]; linarith
    · rw [div_lt_iff₀ hdq]
      have e : (10 : ℚ) ^ ((expUp n n d : Int) + 1) = 10 ^ (expUp n n d + 1) := by
        norm_cast
      rw [e]; linarith
  · simp only [h, if_false]
    have hfuel : d ≤ n * 10 ^ d := by
      calc d ≤ 10 ^ d := (Nat.lt_pow_self (by decide) d).le
        _ ≤ n * 10 ^ d := Nat.le_mul_of_pos_left _ hn
    obtain ⟨h1, h2⟩ := expDown_spec d n d hn (by omega) hfuel
    have h1q : (n : ℚ) * 10 ^ expDown d n d < 10 * d := by exact_mod_cast h1
    have h2q : (d : ℚ) ≤ n * 10 ^ expDown d n d := by exact_mod_cast h2
    have hp : (0 : ℚ) < 10 ^ expDown d n d := by positivity
    constructor
    · rw [zpow_neg, zpow_natCast, le_div_iff₀ hdq, inv_mul_le_iff₀ hp]
      linarith
    · rw [div_lt_iff₀ hdq]
      have e : (10 : ℚ) ^ (-(expDown d n d : Int) + 1) = 10 / 10 ^ expDown d n d := by
        rw [zpow_add₀ (by norm_num), zpow_neg, zpow_natCast, zpow_one]
        field_simp
      rw [e, div_mul_eq_mul_div, lt_div_iff₀ hp]
      linarith

theorem roundDiv_mul (m d : Nat) (hd : 0 < d) : roundDiv (m * d) d = m := by
  unfold roundDiv
  simp [Nat.mul_div_cancel _ hd, hd]

/-- For a value `n / d` that is a six-digit integer `m` times a power of ten,
`sixDigits` finds `m` and the exponent. -/
theorem sixDigits_exact (n d m : Nat) (x : Int) (hn : 0 < n) (hd : 0 < d)
    (hm : 10 ^ 5 ≤ m) (hm2 : m < 10 ^ 6) (hq : (n : ℚ) / d = m * (10 : ℚ) ^ (x - 5)) :
    sixDigits n d = (m, x) := by
  have hdq : (0 : ℚ) < d := by exact_mod_cast hd
  have hmq1 : (10 : ℚ) ^ (5 : Int) ≤ m := by exact_mod_cast hm
  have hmq2 : (m : ℚ) < (10 : ℚ) ^ (6 : Int) := by exact_mod_cast hm2
  have hpos : (0 : ℚ) < (10 : ℚ) ^ (x - 5) := by positivity
  have hlo : (10 : ℚ) ^ x ≤ (n : ℚ) / d := by
    rw [hq]
    calc (10 : ℚ) ^ x = (10 : ℚ) ^ (5 : Int) * (10 : ℚ) ^ (x - 5) := by
          rw [← zpow_add₀ (by norm_num)]; congr 1; ring
      _ ≤ m * (10 : ℚ) ^ (x - 5) := mul_le_mul_of_nonneg_right hmq1 hpos.le
  have hhi : (n : ℚ) / d < (10 : ℚ) ^ (x + 1) := by
    rw [hq]
    calc (m : ℚ) * (10 : ℚ) ^ (x - 5) < (10 : ℚ) ^ (6 : Int) * (10 : ℚ) ^ (x - 5) :=
          mul_lt_mul_of_pos_right hmq2 hpos
      _ = (10 : ℚ) ^ (x + 1) := by
          rw [← zpow_add₀ (by norm_num)]; congr 1; ring
  obtain ⟨h1, h2⟩ := decExp_spec n d hn hd
  have hx : decExp n d = x := by
    have a1 : decExp n d < x + 1 :=
      (zpow_lt_zpow_iff_right₀ (by norm_num : (1 : ℚ) < 10)).mp (lt_of_le_of_lt h1 hhi)
    have a2 : x < decExp n d + 1 :=
      (zpow_lt_zpow_iff_right₀ (by norm_num : (1 : ℚ) < 10)).mp (lt_of_le_of_lt hlo h2)
    omega
  have hs : scaled n d x = m := by
    unfold scaled
    by_cases h5 : x ≤ 5
    · simp only [h5, if_true]
      have e : n * 10 ^ (5 - x).toNat = m * d := by
        have hxe : x - 5 = -((5 - x).toNat : Int) := by omega
        rw [hxe, zpow_neg, zpow_natCast, div_eq_iff hdq.ne'] at hq
        have hp : (0 : ℚ) < 10 ^ (5 - x).toNat := by positivity
        have : (n : ℚ) * 10 ^ (5 - x).toNat = m * d := by
          rw [hq]; field_simp
        exact_mod_cast this
      rw [e, roundDiv_mul _ _ hd]
    · simp only [h5, if_false]
      have e : n = m * (d * 10 ^ (x - 5).toNat) := by
        have hxe : x - 5 = ((x - 5).toNat : Int) := by omega
        rw [hxe, zpow_natCast, div_eq_iff hdq.ne'] at hq
        have : (n : ℚ) = m * (d * 10 ^ (x - 5).toNat) := by
          rw [hq]; ring
        exact_mod_cast this
      have hp : 0 < d * 10 ^ (x - 5).toNat := by positivity
      conv_lhs => rw [e]
      exact roundDiv_mul _ _ hp
  unfold sixDigits
  simp only [hx, hs]
  rw [if_neg (by omega)]

/-! ### The text of a six-digit amount reads back as the amount -/

theorem split_value (ds : Str) (p : Nat) (hp : p ≤ ds.length) :
    (stripZeros (ds.drop p)).length ≤ ds.length - p
    ∧ natOfDigits (ds.take p ++ stripZeros (ds.drop p))
        * 10 ^ (ds.length - p - (stripZeros (ds.drop p)).length) = natOfDigits ds := by
  obtain ⟨z, hz⟩ := stripZeros_split (ds.drop p)
  have hlen : (ds.drop p).length = (stripZeros (ds.drop p)).length + z := by
    conv_lhs => rw [hz]
    simp
  have hdl : (ds.drop p).length = ds.length - p := List.length_drop p ds
  have hzv : z = ds.length - p - (stripZeros (ds.drop p)).length := by omega
  refine ⟨by omega, ?_⟩
  have e : ds = (ds.take p ++ stripZeros (ds.drop p)) ++ List.replicate z '0' := by
    rw [List.append_assoc, ← hz, List.take_append_drop]
  have key : natOfDigits ((ds.take p ++ stripZeros (ds.drop p)) ++ List.replicate z '0')
      = natOfDigits (ds.take p ++ stripZeros (ds.drop p)) * 10 ^ z := by
    rw [natOfDigits_append _ (List.replicate z '0'), natOfDigits_replicate,
      List.length_replicate, Nat.add_zero]
  conv_rhs => rw [e, key]
  rw [← hzv]

theorem stodUnsigned_split (ds tail : Str) (p : Nat) (hp1 : 1 ≤ p) (hp : p ≤ ds.length)
    (hds : ∀ c ∈ ds, c.isDigit = true) (ht : tail = [] ∨ ∃ rest, tail = 'e' :: rest) :
    stodUnsigned (ds.take p ++ showFrac (stripZeros (ds.drop p)) ++ tail)
      = some ((natOfDigits ds : ℚ)
          * (10 : ℚ) ^ (parseExp tail - ((ds.length - p : Nat) : Int))) := by
  have hip : ∀ c ∈ ds.take p, c.isDigit = true := fun c hc => hds c (List.mem_of_mem_take hc)
  have hfp : ∀ c ∈ stripZeros (ds.drop p), c.isDigit = true :=
    stripZeros_isDigit _ (fun c hc => hds c (List.mem_of_mem_drop hc))
  rw [stodUnsigned_decimal _ _ _ hip hfp ht]
  obtain ⟨hlen, hval⟩ := split_value ds p hp
  have hne : ds.take p ≠ [] := by
    intro e
    have := congrArg List.length e
    simp only [List.length_take, List.length_nil] at this
    omega
  unfold decimalValue
  rw [if_neg (fun h => hne h.1)]
  congr 1
  have hq : (natOfDigits ds : ℚ)
      = (natOfDigits (ds.take p ++ stripZeros (ds.drop p)) : ℚ)
        * (10 : ℚ) ^ ((ds.length - p - (stripZeros (ds.drop p)).length : Nat) : Int) := by
    rw [zpow_natCast]
    exact_mod_cast hval.symm
  rw [hq, mul_assoc, ← zpow_add₀ (by norm_num : (10 : ℚ) ≠ 0)]
  congr 2
  omega

theorem take_head_digit (ds rest : Str) (p : Nat) (hp1 : 1 ≤ p) (hp : p ≤ ds.length)
    (hds : ∀ c ∈ ds, c.isDigit = true) :
    ∃ c cs, ds.take p ++ rest = c :: cs ∧ c.isDigit = true := by
  cases ds with
  | nil => simp at hp; omega
  | cons c cs =>
    cases p with
    | zero => omega
    | succ q =>
      exact ⟨c, cs.take q ++ rest, by simp, hds c (List.mem_cons_self _ _)⟩

/-- The text of a positive value with six-digit mantissa `m` and decimal
exponent `x` starts with a digit and reads back as `m * 10 ^ (x - 5)`. -/
theorem showPos_reads (n d m : Nat) (x : Int) (hsd : sixDigits n d = (m, x))
    (hm2 : m < 10 ^ 6) :
    stodUnsigned (showPos n d) = some ((m : ℚ) * (10 : ℚ) ^ (x - 5))
    ∧ ∃ c cs, showPos n d = c :: cs ∧ c.isDigit = true := by
  have hlen : (digitsFixed 6 m).length = 6 := digitsFixed_length 6 m
  have hdig := digitsFixed_isDigit 6 m
  have hval : natOfDigits (digitsFixed 6 m) = m := by
    rw [natOfDigits_digitsFixed, Nat.mod_eq_of_lt hm2]
  unfold showPos
  simp only [hsd]
  by_cases hsci : 6 ≤ x ∨ x < -4
  · rw [if_pos hsci]
    constructor
    · rw [stodUnsigned_split _ _ 1 (le_refl 1) (by omega) hdig (Or.inr ⟨_, rfl⟩),
        parseExp_showExp, hval, hlen]
      congr 2
    · obtain ⟨c, cs, hc, hcd⟩ := take_head_digit (digitsFixed 6 m)
        (showFrac (stripZeros ((digitsFixed 6 m).drop 1)) ++ 'e' :: showExp x) 1
        (le_refl 1) (by omega) hdig
      exact ⟨c, cs, by rw [← hc, List.append_assoc], hcd⟩
  · rw [if_neg hsci]
    by_cases h0 : 0 ≤ x
    · rw [if_pos h0]
      have hp : x.toNat + 1 ≤ (digitsFixed 6 m).length := by omega
      constructor
      · have := stodUnsigned_split (digitsFixed 6 m) [] (x.toNat + 1) (by omega) hp hdig
          (Or.inl rfl)
        rw [List.append_nil] at this
        rw [this, hval, hlen]
        have e : parseExp [] - ((6 - (x.toNat + 1) : Nat) : Int) = x - 5 := by
          simp only [parseExp]
          omega
        rw [e]
      · obtain ⟨c, cs, hc, hcd⟩ := take_head_digit (digitsFixed 6 m)
          (showFrac (stripZeros ((digitsFixed 6 m).drop (x.toNat + 1)))) (x.toNat + 1)
          (by omega) hp hdig
        exact ⟨c, cs, hc, hcd⟩
    · rw [if_neg h0]
      refine ⟨?_, '0', _, rfl, by decide⟩
      have hds : ∀ c ∈ '0' :: (List.replicate ((-x).toNat - 1) '0' ++ digitsFixed 6 m),
          c.isDigit = true := by
        intro c hc
        rcases List.mem_cons.mp hc with hc | hc
        · rw [hc]; decide
        · rcases List.mem_append.mp hc with hc | hc
          · rw [List.eq_of_mem_replicate hc]; decide
          · exact hdig c hc
      have := stodUnsigned_split
        ('0' :: (List.replicate ((-x).toNat - 1) '0' ++ digitsFixed 6 m)) [] 1 (le_refl 1)
        (by simp) hds (Or.inl rfl)
      simp only [List.take_succ_cons, List.take_zero, List.drop_succ_cons, List.drop_zero,
        List.append_nil, List.singleton_append] at this
      rw [this]
      have hv : natOfDigits ('0' :: (List.replicate ((-x).toNat - 1) '0' ++ digitsFixed 6 m))
          = m := by
        have e : '0' :: (List.replicate ((-x).toNat - 1) '0' ++ digitsFixed 6 m)
            = List.replicate ((-x).toNat - 1 + 1) '0' ++ digitsFixed 6 m := by
          rw [List.replicate_succ]; rfl
        rw [e, natOfDigits_append, natOfDigits_replicate, hval]
        simp
      rw [hv]
      have e : parseExp []
          - (((('0' :: (List.replicate ((-x).toNat - 1) '0' ++ digitsFixed 6 m)).length - 1 : Nat))
              : Int) = x - 5 := by
        simp only [parseExp, List.length_cons, List.length_append, List.length_replicate, hlen]
        omega
      rw [e]

theorem six_digit_mantissa (m : Nat) (h0 : 0 < m) (hm : m < 10 ^ 6) :
    ∃ j : Nat, 10 ^ 5 ≤ m * 10 ^ j ∧ m * 10 ^ j < 10 ^ 6 := by
  norm_num at hm ⊢
  by_cases h1 : m < 10
  · exact ⟨5, by norm_num; omega, by norm_num; omega⟩
  by_cases h2 : m < 100
  · exact ⟨4, by norm_num; omega, by norm_num; omega⟩
  by_cases h3 : m < 1000
  · exact ⟨3, by norm_num; omega, by norm_num; omega⟩
  by_cases h4 : m < 10000
  · exact ⟨2, by norm_num; omega, by norm_num; omega⟩
  by_cases h5 : m < 100000
  · exact ⟨1, by norm_num; omega, by norm_num; omega⟩
  · exact ⟨0, by norm_num; omega, by norm_num; omega⟩

theorem natAbs_num_div_den (a : ℚ) : ((a.num.natAbs : Nat) : ℚ) / (a.den : ℚ) = |a| := by
  have hd : (0 : ℚ) < (a.den : ℚ) := by exact_mod_cast a.den_pos
  have h1 : ((a.num.natAbs : Nat) : ℚ) = |(a.num : ℚ)| := by
    rw [Nat.cast_natAbs, Int.cast_abs]
  rw [h1]
  conv_rhs => rw [← Rat.num_div_den a]
  rw [abs_div, abs_of_pos hd]

/-- An amount with at most six significant decimal digits and in the range
of `double` is written to a text that `stod` reads back as the same amount. -/
theorem stod_showDouble (a : ℚ) (h : SixDigit a) (hr : InDoubleRange a) :
    stod (showDouble a) = Except.ok (Double.finite a) := by
  obtain ⟨m, k, hm, ha⟩ := h
  by_cases h0 : a = 0
  · rw [h0]; decide!
  have habs : 0 < |a| := abs_pos.mpr h0
  have hm0 : 0 < m := by
    rcases Nat.eq_zero_or_pos m with e | e
    · rw [e] at ha; simp at ha; exact absurd ha h0
    · exact e
  obtain ⟨j, hj1, hj2⟩ := six_digit_mantissa m hm0 hm
  have hn : 0 < a.num.natAbs := Int.natAbs_pos.mpr (Rat.num_ne_zero.mpr h0)
  have hq : ((a.num.natAbs : Nat) : ℚ) / (a.den : ℚ)
      = ((m * 10 ^ j : Nat) : ℚ) * (10 : ℚ) ^ ((k - j + 5 : Int) - 5) := by
    rw [natAbs_num_div_den, ha]
    push_cast
    rw [mul_assoc, ← zpow_natCast, ← zpow_add₀ (by norm_num : (10 : ℚ) ≠ 0)]
    congr 2
    ring
  have hsd := sixDigits_exact a.num.natAbs a.den (m * 10 ^ j) (k - j + 5) hn a.den_pos hj1 hj2 hq
  obtain ⟨hread, c, cs, hc, hcd⟩ := showPos_reads _ _ _ _ hsd hj2
  rw [← hq, natAbs_num_div_den] at hread
  unfold showDouble
  rw [if_neg h0]
  have hxs : 'x' ∉ cs ∧ 'X' ∉ cs := by
    constructor <;> intro hmem <;>
      exact absurd (showPos_chars a.num.natAbs a.den _
        (by rw [hc]; exact List.mem_cons_of_mem _ hmem)) (by decide)
  have hmag : strtodUnsigned (showPos a.num.natAbs a.den) = some (Magnitude.value |a|) := by
    rw [hc, strtodUnsigned_digit c cs hcd hxs.1 hxs.2, ← hc, hread]
    rfl
  have hr2 : InDoubleRange |a| := by
    unfold InDoubleRange at hr ⊢
    rw [abs_abs]
    rcases hr with hr | hr
    · exact absurd hr h0
    · exact Or.inr hr
  by_cases hneg : a < 0
  · rw [if_pos hneg, stod_minus, hmag, stodResult_value true _ habs hr2, abs_of_neg hneg]
    simp
  · rw [if_neg hneg, hc, stod_digit_head c cs hcd, ← hc, hmag,
      stodResult_value false _ habs hr2, abs_of_nonneg (not_lt.mp hneg)]
    simp

/-- The text of a positive amount starts with a digit. -/
theorem showPos_head (n d : Nat) : ∃ c cs, showPos n d = c :: cs ∧ c.isDigit = true := by
  have hlen : (digitsFixed 6 (sixDigits n d).1).length = 6 := digitsFixed_length 6 _
  have hdig := digitsFixed_isDigit 6 (sixDigits n d).1
  unfold showPos
  simp only
  split_ifs with h1 h2
  · rw [List.append_assoc]
    exact take_head_digit _ _ 1 (le_refl 1) (by omega) hdig
  · exact take_head_digit _ _ _ (by omega) (by omega) hdig
  · exact ⟨'0', _, rfl, by decide⟩

/-- The result of `stod` for a decimal number is never an infinity or a NaN. -/
theorem stodResult_exact (negative : Bool) (r : Option ℚ) (d : Double)
    (h : stodResult negative (r.map Magnitude.value) = Except.ok d) :
    d.exact.isSome = true := by
  cases r with
  | none => simp [stodResult] at h
  | some v =>
    simp only [Option.map_some', stodResult] at h
    split_ifs at h
    all_goals
      simp only [Except.ok.injEq] at h
      rw [← h]
      rfl

/-- Whatever rational amount `saveToFile` writes, `stod` reads its text as a
rational or throws `std::out_of_range`: the amounts that the store writes in
the exact reading never come back as an infinity or a NaN. -/
theorem stod_showDouble_exact (a : ℚ) (d : Double)
    (h : stod (showDouble a) = Except.ok d) : d.exact.isSome = true := by
  have hpos : ∀ (negative : Bool),
      stodResult negative (strtodUnsigned (showPos a.num.natAbs a.den)) = Except.ok d →
      d.exact.isSome = true := by
    intro negative hres
    obtain ⟨c, cs, hc, hcd⟩ := showPos_head a.num.natAbs a.den
    have hxs : 'x' ∉ cs ∧ 'X' ∉ cs := by
      constructor <;> intro hmem <;>
        exact absurd (showPos_chars a.num.natAbs a.den _
          (by rw [hc]; exact List.mem_cons_of_mem _ hmem)) (by decide)
    rw [hc, strtodUnsigned_digit c cs hcd hxs.1 hxs.2] at hres
    exact stodResult_exact negative _ d hres
  unfold showDouble at h
  split_ifs at h with h0 hneg
  · have e : stod ['0'] = Except.ok (Double.finite 0) := by decide!
    rw [e] at h
    simp only [Except.ok.injEq] at h
    rw [← h]
    rfl
  · rw [stod_minus] at h
    exact hpos true h
  · obtain ⟨c, cs, hc, hcd⟩ := showPos_head a.num.natAbs a.den
    rw [hc, stod_digit_head c cs hcd, ← hc] at h
    exact hpos false h

/-- Fuel above the length of the input is never used up: the loop of
`loadFromFile` with `Double` amounts gives the same result with any larger
fuel. -/
theorem loadLoopIeee_fuel (fuel1 fuel2 : Nat) (input : Str) (acc : List Ieee.Transaction)
    (h1 : input.length < fuel1) (h2 : input.length < fuel2) :
    Ieee.loadLoop fuel1 input acc = Ieee.loadLoop fuel2 input acc := by
  induction fuel1 generalizing fuel2 input acc with
  | zero => omega
  | succ f1 ih =>
    cases fuel2 with
    | zero => omega
    | succ f2 =>
      unfold Ieee.loadLoop
      cases hr : readFields input with
      | none => rfl
      | some p =>
        obtain ⟨type, amtStr, dt, nt, rest⟩ := p
        have hl := readFields_length _ _ _ _ _ _ hr
        simp only
        cases stod amtStr with
        | error e => rfl
        | ok amt =>
          simp only
          rw [ih f2 rest _ (by omega) (by omega), ih f2 rest _ (by omega) (by omega)]

/-! ### Round trip -/

theorem noComma_of_wellKinded (t : Transaction) (h : WellKinded t) : ',' ∉ t.type := by
  rcases h with h | h <;> rw [h] <;> decide

theorem record_of_fields (t : Transaction) (h : WellKinded t) :
    (if t.type = incomeName then Income t.amount t.dateTime t.note
      else Expense t.amount t.dateTime t.note) = t := by
  rcases h with h | h
  · rw [if_pos h]
    cases t
    simp only [Income] at h ⊢
    rw [h]
  · have hne : ¬ t.type = incomeName := by rw [h]; decide
    rw [if_neg hne]
    cases t
    simp only [Expense] at h ⊢
    rw [h]

theorem loadLoop_serialize (rs : List Transaction) (fuel : Nat) (acc : List Transaction)
    (hf : rs.length ≤ fuel) (hs : ∀ t ∈ rs, Storable t) :
    loadLoop fuel (serialize rs) acc = (acc ++ rs, none) := by
  induction rs generalizing fuel acc with
  | nil =>
    cases fuel with
    | zero => simp [loadLoop]
    | succ f => simp [loadLoop, serialize, readFields, getline]
  | cons t ts ih =>
    cases fuel with
    | zero => simp at hf
    | succ f =>
      obtain ⟨hk, hdt, hnt, hamt⟩ := hs t (List.mem_cons_self _ _)
      have e : serialize (t :: ts) = recordLine t ++ serialize ts := by
        simp [serialize]
      rw [e]
      unfold loadLoop
      rw [readFields_recordLine t _ (noComma_of_wellKinded t hk) (showDouble_noComma _) hdt hnt]
      simp only [hamt, Double.exact]
      have ih2 := fun r => ih f (acc ++ [r]) (by simpa using hf)
        (fun u hu => hs u (List.mem_cons_of_mem _ hu))
      have hrec := record_of_fields t hk
      by_cases hi : t.type = incomeName
      · rw [if_pos hi] at hrec ⊢
        rw [ih2, hrec]; simp
      · rw [if_neg hi] at hrec ⊢
        rw [ih2, hrec]; simp

theorem length_le_serialize (rs : List Transaction) : rs.length ≤ (serialize rs).length := by
  induction rs with
  | nil => simp
  | cons t ts ih =>
    have e : serialize (t :: ts) = recordLine t ++ serialize ts := by
      simp [serialize]
    rw [e]
    simp only [List.length_cons, List.length_append, recordLine, List.length_nil]
    omega

/-- Loading the serialised form of storable records gives these records. -/
theorem loadFromFile_serialize (fm : FinanceManager) (disk : Disk) (rs : List Transaction)
    (hd : disk fm.filename = some (serialize rs)) (hs : ∀ t ∈ rs, Storable t) :
    (fm.loadFromFile disk).fm.records = rs ∧ (fm.loadFromFile disk).thrown = none := by
  unfold FinanceManager.loadFromFile
  rw [hd]
  simp only
  rw [loadLoop_serialize rs _ [] (by have := length_le_serialize rs; omega) hs]
  simp

/-- A record of kind Income or Expense without a comma in its timestamp,
without a newline in its note and with an amount of at most six significant
digits in the range of `double` is storable. -/
theorem storable_of_sixDigit (t : Transaction)
    (h : WellKinded t ∧ ',' ∉ t.dateTime ∧ '\n' ∉ t.note ∧ SixDigit t.amount
      ∧ InDoubleRange t.amount) : Storable t :=
  ⟨h.1, h.2.1, h.2.2.1, stod_showDouble t.amount h.2.2.2.1 h.2.2.2.2⟩

/-- The records of the receipt example meet the conditions of the round
trip. -/
theorem receiptLedger_storable : ∀ t ∈ receiptLedger.records,
    WellKinded t ∧ ',' ∉ t.dateTime ∧ '\n' ∉ t.note ∧ SixDigit t.amount
      ∧ InDoubleRange t.amount := by
  intro t ht
  simp only [receiptLedger, List.mem_cons, List.mem_singleton, List.not_mem_nil,
    or_false] at ht
  rcases ht with rfl | rfl
  · exact ⟨by decide, by decide, by decide, ⟨125075, -2, by norm_num, by norm_num [Income]⟩,
      by decide!⟩
  · exact ⟨by decide, by decide, by decide, ⟨5, -1, by norm_num, by norm_num [Expense]⟩,
      by decide!⟩

/-- C1, amended: when the backing file can be written, for a ledger whose
records are of kind Income or Expense, have no comma in the timestamp, no
newline in the note, and an amount of at most six significant decimal digits
that is zero or a normal `double` in magnitude, `saveToFile` followed by
`loadFromFile` into a fresh `FinanceManager` on the same file gives back the
same list of records, without an exception. -/
theorem save_load_roundtrip (fm : FinanceManager) (disk : Disk)
    (hw : disk.canWrite fm.filename = true)
    (hs : ∀ t ∈ fm.records,
      WellKinded t ∧ ',' ∉ t.dateTime ∧ '\n' ∉ t.note ∧ SixDigit t.amount
        ∧ InDoubleRange t.amount) :
    ((FinanceManager.new fm.filename).loadFromFile (fm.saveToFile disk)).fm.records
        = fm.records
    ∧ ((FinanceManager.new fm.filename).loadFromFile (fm.saveToFile disk)).thrown = none :=
  loadFromFile_serialize (FinanceManager.new fm.filename) (fm.saveToFile disk) fm.records
    (saveToFile_file fm disk hw) (fun t ht => storable_of_sixDigit t (hs t ht))

/-- Witness of the amended C1: a ledger with amounts 1250.75 and 0.5 and a
comma in a note. -/
theorem save_load_roundtrip_witness :
    noFiles.canWrite receiptLedger.filename = true
    ∧ (∀ t ∈ receiptLedger.records,
      WellKinded t ∧ ',' ∉ t.dateTime ∧ '\n' ∉ t.note ∧ SixDigit t.amount
        ∧ InDoubleRange t.amount)
    ∧ (receiptLedger.saveToFile noFiles) csvName
        = some ("Income,1250.75,2024-03-01 09:30:00,salary, March\n"
            ++ "Expense,0.5,2024-03-01 09:30:00,stamp\n").toList
    ∧ ((FinanceManager.new receiptLedger.filename).loadFromFile
        (receiptLedger.saveToFile noFiles)).fm.records = receiptLedger.records :=
  ⟨rfl, receiptLedger_storable, by decide!,
    (save_load_roundtrip receiptLedger noFiles rfl receiptLedger_storable).1⟩

/-- C1 as stated fails: the notes of these three ledgers hold no comma and
no newline, yet the records loaded after saving differ from the records
saved.  An amount of seven significant digits is written with six and comes
back as 1234570; a comma in a timestamp moves the end of the timestamp field;
an amount below the least normal `double` is written as `1e-310`, on which
`stod` throws `std::out_of_range`, so that nothing is loaded. -/
theorem save_load_counterexample :
    (∀ t ∈ sevenDigitLedger.records, WellKinded t ∧ ',' ∉ t.note ∧ '\n' ∉ t.note)
    ∧ (sevenDigitLedger.saveToFile noFiles) csvName
        = some "Income,1.23457e+06,2024-03-01 09:30:00,salary\n".toList
    ∧ ((FinanceManager.new sevenDigitLedger.filename).loadFromFile
        (sevenDigitLedger.saveToFile noFiles)).fm.records
        = [Income 1234570 stamp "salary".toList]
    ∧ ((FinanceManager.new sevenDigitLedger.filename).loadFromFile
        (sevenDigitLedger.saveToFile noFiles)).fm.records ≠ sevenDigitLedger.records
    ∧ (∀ t ∈ commaStampLedger.records, WellKinded t ∧ ',' ∉ t.note ∧ '\n' ∉ t.note)
    ∧ ((FinanceManager.new commaStampLedger.filename).loadFromFile
        (commaStampLedger.saveToFile noFiles)).fm.records
        = [Income 5 "2024-03-01".toList " 09:30,salary".toList]
    ∧ ((FinanceManager.new commaStampLedger.filename).loadFromFile
        (commaStampLedger.saveToFile noFiles)).fm.records ≠ commaStampLedger.records
    ∧ (∀ t ∈ tinyLedger.records, WellKinded t ∧ ',' ∉ t.note ∧ '\n' ∉ t.note)
    ∧ (tinyLedger.saveToFile noFiles) csvName
        = some "Income,1e-310,2024-03-01 09:30:00,dust\n".toList
    ∧ ((FinanceManager.new tinyLedger.filename).loadFromFile
        (tinyLedger.saveToFile noFiles)).thrown = some (Exn.out_of_range "stod")
    ∧ ((FinanceManager.new tinyLedger.filename).loadFromFile
        (tinyLedger.saveToFile noFiles)).fm.records = []
    ∧ ((FinanceManager.new tinyLedger.filename).loadFromFile
        (tinyLedger.saveToFile noFiles)).fm.records ≠ tinyLedger.records := by
  refine ⟨by decide!, by decide!, by decide!, by decide!, by decide!, by decide!, by decide!,
    by decide!, by decide!, by decide!, by decide!, by decide!⟩

/-! ### The amount invariant -/

theorem isPos_of_guard (d : Double) (h1 : d.leZero = false) (h2 : d.isNaN = false) :
    d.isPos = true := by
  cases d with
  | finite q =>
    simp only [Double.leZero, decide_eq_false_iff_not, not_le] at h1
    simp [Double.isPos, h1]
  | negZero => simp [Double.leZero] at h1
  | inf negative =>
    simp only [Double.leZero] at h1
    simp [Double.isPos, h1]
  | nan negative => simp [Double.isNaN] at h2

theorem addTransaction_positive (fm : Ieee.FinanceManager) (disk : Disk)
    (t : Ieee.Transaction) (h : Ieee.AllPositive fm.records) (hn : t.amount.isNaN = false) :
    Ieee.AllPositive (fm.addTransaction disk t).fm.records := by
  unfold Ieee.FinanceManager.addTransaction
  cases ha : t.amount.leZero with
  | true => simpa using h
  | false =>
    simp only [Bool.false_eq_true, if_false]
    intro u hu
    rcases List.mem_append.mp hu with hu | hu
    · exact h u hu
    · rw [List.mem_singleton.mp hu]
      exact isPos_of_guard _ ha hn

theorem removeTransaction_positive (fm : Ieee.FinanceManager) (disk : Disk) (i : Int)
    (h : Ieee.AllPositive fm.records) :
    Ieee.AllPositive (fm.removeTransaction disk i).fm.records := by
  unfold Ieee.FinanceManager.removeTransaction
  by_cases hc : i < 0 ∨ toSizeT i ≥ fm.records.length
  · simpa [hc] using h
  · simp only [hc, if_false]
    intro u hu
    exact h u (List.eraseIdx_subset _ _ hu)

theorem run_positive (ops : List Ieee.Op) (s : Ieee.FinanceManager × Disk)
    (h : Ieee.AllPositive s.1.records) (hl : Ieee.LoadsArePositive ops s)
    (hn : Ieee.AddsAreNumbers ops) :
    Ieee.AllPositive (Ieee.run s ops).1.records := by
  induction ops generalizing s with
  | nil => simpa [Ieee.run] using h
  | cons op ops ih =>
    have e : Ieee.run s (op :: ops) = Ieee.run (Ieee.step s op) ops := by simp [Ieee.run]
    rw [e]
    refine ih _ ?_ hl.2 (fun t ht => hn t (List.mem_cons_of_mem _ ht))
    cases op with
    | load => exact hl.1 rfl
    | add t => exact addTransaction_positive _ _ _ h (hn t (List.mem_cons_self _ _))
    | remove i => exact removeTransaction_positive _ _ _ h

/-- C8, amended: in every state reached from a freshly constructed
`FinanceManager` by a sequence of `loadFromFile`, `addTransaction` and
`removeTransaction` calls, successful or failed, in which every
`loadFromFile` reads amounts `> 0` only and no `addTransaction` is given a
NaN amount, every record has an amount `> 0`. -/
theorem amounts_positive (file : Str) (disk : Disk) (ops : List Ieee.Op)
    (hl : Ieee.LoadsArePositive ops (Ieee.FinanceManager.new file, disk))
    (hn : Ieee.AddsAreNumbers ops) :
    Ieee.AllPositive (Ieee.run (Ieee.FinanceManager.new file, disk) ops).1.records :=
  run_positive ops _ (by simp [Ieee.AllPositive, Ieee.FinanceManager.new]) hl hn

/-- Witness of the amended C8: a load of a missing file, a refused
`addTransaction`, two accepted ones (an amount of 100 and an infinite
amount), a load of the file just written, and a `removeTransaction`. -/
theorem amounts_positive_witness :
    Ieee.LoadsArePositive invariantOps (Ieee.FinanceManager.new csvName, noFiles)
    ∧ Ieee.AddsAreNumbers invariantOps
    ∧ (Ieee.run (Ieee.FinanceManager.new csvName, noFiles) invariantOps).2 csvName
      = some "Income,100,2024-03-01 09:30:00,\nIncome,inf,2024-03-01 09:30:00,\n".toList
    ∧ (Ieee.run (Ieee.FinanceManager.new csvName, noFiles) invariantOps).1.records
      = [Ieee.Income (Double.finite 100) stamp [], Ieee.Income (Double.inf false) stamp []]
    ∧ Ieee.AllPositive
        (Ieee.run (Ieee.FinanceManager.new csvName, noFiles) invariantOps).1.records := by
  have h : Ieee.LoadsArePositive invariantOps (Ieee.FinanceManager.new csvName, noFiles) := by
    simp only [invariantOps, Ieee.LoadsArePositive, and_true, true_implies, reduceCtorEq,
      false_implies, true_and]
    refine ⟨by decide!, by decide!⟩
  have hn : Ieee.AddsAreNumbers invariantOps := by
    intro t ht
    simp only [invariantOps, List.mem_cons, reduceCtorEq, Ieee.Op.add.injEq,
      List.not_mem_nil, or_false, false_or] at ht
    rcases ht with rfl | rfl | rfl <;> rfl
  exact ⟨h, hn, by decide!, by decide!, amounts_positive csvName noFiles _ h hn⟩

/-- C8 as stated fails in two ways.  `loadFromFile` does not check amounts:
on a file that holds an amount of -5 it puts a record with amount -5 in the
ledger of a fresh `FinanceManager`.  And the guard `amount <= 0` of
`addTransaction` is false for a NaN: a record with a NaN amount is accepted
and stored, and a NaN is not `> 0`. -/
theorem amounts_positive_counterexample :
    (Ieee.run (Ieee.FinanceManager.new csvName, negativeFile) [Ieee.Op.load]).1.records
        = [Ieee.Income (Double.finite (-5)) stamp "refund".toList]
    ∧ ¬ Ieee.AllPositive
        (Ieee.run (Ieee.FinanceManager.new csvName, negativeFile) [Ieee.Op.load]).1.records
    ∧ ((Ieee.FinanceManager.new csvName).addTransaction noFiles
        (Ieee.Income (Double.nan false) stamp [])).thrown = none
    ∧ (Ieee.run (Ieee.FinanceManager.new csvName, noFiles)
        [Ieee.Op.add (Ieee.Income (Double.nan false) stamp [])]).1.records
        = [Ieee.Income (Double.nan false) stamp []]
    ∧ ¬ Ieee.AllPositive (Ieee.run (Ieee.FinanceManager.new csvName, noFiles)
        [Ieee.Op.add (Ieee.Income (Double.nan false) stamp [])]).1.records := by
  refine ⟨by decide!, by decide!, by decide!, by decide!, by decide!⟩

/-! ### The balance under mutations -/

theorem foldl_signed (rs : List Transaction) (acc : ℚ × ℚ) :
    (rs.foldl
      (fun (acc : ℚ × ℚ) t =>
        if t.type = incomeName then (acc.1 + t.amount, acc.2)
        else (acc.1, acc.2 + t.amount)) acc).1
    - (rs.foldl
      (fun (acc : ℚ × ℚ) t =>
        if t.type = incomeName then (acc.1 + t.amount, acc.2)
        else (acc.1, acc.2 + t.amount)) acc).2
    = acc.1 - acc.2 + (rs.map signedContribution).sum := by
  induction rs generalizing acc with
  | nil => simp
  | cons t ts ih =>
    rw [List.foldl_cons, ih]
    by_cases ht : t.type = incomeName
    · simp only [ht, if_true, List.map_cons, List.sum_cons, signedContribution]
      ring
    · simp only [ht, if_false, List.map_cons, List.sum_cons, signedContribution]
      ring

theorem getBalance_sum (fm : FinanceManager) :
    fm.getBalance = (fm.records.map signedContribution).sum := by
  unfold FinanceManager.getBalance
  simp only
  rw [foldl_signed]
  simp

theorem sum_map_eraseIdx (rs : List Transaction) (k : Nat) (h : k < rs.length) :
    ((rs.eraseIdx k).map signedContribution).sum
      = (rs.map signedContribution).sum - signedContribution rs[k] := by
  induction rs generalizing k with
  | nil => simp at h
  | cons t ts ih =>
    cases k with
    | zero => simp
    | succ k =>
      simp only [List.eraseIdx_cons_succ, List.map_cons, List.sum_cons, List.getElem_cons_succ]
      rw [ih k (by simpa using h)]
      ring

/-- C12: over exact arithmetic, with `b` the balance of the ledger and
`a > 0`: a successful `addTransaction` of an Income record of amount `a`
gives balance `b + a`, of an Expense record of amount `a` gives `b - a`, and
a successful `removeTransaction i` (an `int` index) gives `b` minus the signed
contribution of the removed record. -/
theorem getBalance_additive (fm : FinanceManager) (disk : Disk) :
    (∀ (a : ℚ) (dt nt : Str), 0 < a →
      (fm.addTransaction disk (Income a dt nt)).thrown = none
      ∧ (fm.addTransaction disk (Income a dt nt)).fm.getBalance = fm.getBalance + a)
    ∧ (∀ (a : ℚ) (dt nt : Str), 0 < a →
      (fm.addTransaction disk (Expense a dt nt)).thrown = none
      ∧ (fm.addTransaction disk (Expense a dt nt)).fm.getBalance = fm.getBalance - a)
    ∧ (∀ (i : Int), i < 2 ^ 31 → (fm.removeTransaction disk i).thrown = none →
      ∃ r, fm.records[i.toNat]? = some r
        ∧ (fm.removeTransaction disk i).fm.getBalance
            = fm.getBalance - signedContribution r) := by
  refine ⟨?_, ?_, ?_⟩
  · intro a dt nt ha
    have hn : ¬ (Income a dt nt).amount ≤ 0 := by simpa [Income] using ha
    simp only [FinanceManager.addTransaction, hn, if_false, getBalance_sum, List.map_append,
      List.sum_append, List.map_cons, List.map_nil, List.sum_cons, List.sum_nil, add_zero,
      true_and]
    simp [signedContribution, Income]
  · intro a dt nt ha
    have hn : ¬ (Expense a dt nt).amount ≤ 0 := by simpa [Expense] using ha
    have hne : ¬ expenseName = incomeName := by decide
    simp only [FinanceManager.addTransaction, hn, if_false, getBalance_sum, List.map_append,
      List.sum_append, List.map_cons, List.map_nil, List.sum_cons, List.sum_nil, add_zero,
      true_and]
    simp only [signedContribution, Expense, hne, if_false]
    ring
  · intro i hint hth
    unfold FinanceManager.removeTransaction at hth ⊢
    by_cases hc : i < 0 ∨ toSizeT i ≥ fm.records.length
    · simp [hc] at hth
    · simp only [hc, if_false]
      have h0 : 0 ≤ i := by
        by_contra h; exact hc (Or.inl (by omega))
      have hs : toSizeT i = i.toNat := toSizeT_of_nonneg i h0 hint
      have hlt : i.toNat < fm.records.length := by
        by_contra h; exact hc (Or.inr (by rw [hs]; omega))
      refine ⟨fm.records[i.toNat], List.getElem?_eq_getElem hlt, ?_⟩
      rw [getBalance_sum, getBalance_sum]
      exact sum_map_eraseIdx fm.records i.toNat hlt

/-- Witness of C12: on the ledger Income 100, Expense 40, Income 5 with
balance 65, adding an income of 10 gives 75, adding an expense of 10 gives
55, and removing the expense of 40 gives 105. -/
theorem getBalance_additive_witness :
    balanceLedger.getBalance = 65
    ∧ (balanceLedger.addTransaction noFiles (Income 10 stamp [])).fm.getBalance = 75
    ∧ (balanceLedger.addTransaction noFiles (Expense 10 stamp [])).fm.getBalance = 55
    ∧ (balanceLedger.removeTransaction noFiles 1).thrown = none
    ∧ (balanceLedger.removeTransaction noFiles 1).fm.getBalance = 105 := by
  have h := getBalance_additive balanceLedger noFiles
  have hb : balanceLedger.getBalance = 65 := by decide!
  obtain ⟨r, hr, hrem⟩ := h.2.2 1 (by decide) (by decide!)
  have hr2 : r = Expense 40 stamp "food".toList := by
    have : balanceLedger.records[(1 : Int).toNat]? = some (Expense 40 stamp "food".toList) := by
      decide!
    rw [this] at hr
    exact (Option.some.inj hr).symm
  refine ⟨hb, ?_, ?_, by decide!, ?_⟩
  · rw [(h.1 10 stamp [] (by norm_num)).2, hb]; norm_num
  · rw [(h.2.1 10 stamp [] (by norm_num)).2, hb]; norm_num
  · rw [hrem, hb, hr2]
    have hne : ¬ expenseName = incomeName := by decide
    simp only [signedContribution, Expense, hne, if_false]
    norm_num

/-! ### The kind of a loaded record -/

theorem readFields_line (l : FileLine) (rest : Str) (h : l.WellFormed) :
    readFields (l.text ++ rest) = some (l.type, l.amount, l.dateTime, l.note, rest) := by
  have e : l.text ++ rest
      = l.type ++ ',' :: (l.amount ++ ',' :: (l.dateTime ++ ',' :: (l.note ++ '\n' :: rest))) := by
    simp [FileLine.text, List.append_assoc]
  rw [e]
  unfold readFields
  rw [getline_field _ _ _ h.1]
  simp only
  rw [getline_field _ _ _ h.2.1]
  simp only
  rw [getline_field _ _ _ h.2.2.1]
  simp only
  rw [getline_field _ _ _ h.2.2.2.1]

theorem record_of_line (l : FileLine) (amt : Double) (h : stod l.amount = Except.ok amt) :
    (if l.type = incomeName then Ieee.Income amt l.dateTime l.note
      else Ieee.Expense amt l.dateTime l.note) = l.record := by
  by_cases hi : l.type = incomeName
  · simp [FileLine.record, FileLine.value, Ieee.Income, hi, h]
  · simp [FileLine.record, FileLine.value, Ieee.Expense, hi, h]

theorem loadLoop_lines (ls : List FileLine) (fuel : Nat) (acc : List Ieee.Transaction)
    (hf : ls.length ≤ fuel) (hw : ∀ l ∈ ls, l.WellFormed) :
    Ieee.loadLoop fuel ((ls.map FileLine.text).flatten) acc
      = (acc ++ ls.map FileLine.record, none) := by
  induction ls generalizing fuel acc with
  | nil =>
    cases fuel with
    | zero => simp [Ieee.loadLoop]
    | succ f => simp [Ieee.loadLoop, readFields, getline]
  | cons l ls ih =>
    cases fuel with
    | zero => simp at hf
    | succ f =>
      have hl := hw l (List.mem_cons_self _ _)
      obtain ⟨amt, hamt⟩ := hl.2.2.2.2
      simp only [List.map_cons, List.flatten_cons]
      unfold Ieee.loadLoop
      rw [readFields_line l _ hl]
      simp only [hamt]
      have hrec := record_of_line l amt hamt
      have ih2 := fun r => ih f (acc ++ [r]) (by simpa using hf)
        (fun u hu => hw u (List.mem_cons_of_mem _ hu))
      by_cases hi : l.type = incomeName
      · rw [if_pos hi] at hrec ⊢
        rw [ih2, hrec]; simp
      · rw [if_neg hi] at hrec ⊢
        rw [ih2, hrec]; simp

theorem length_le_lines (ls : List FileLine) :
    ls.length ≤ ((ls.map FileLine.text).flatten).length := by
  induction ls with
  | nil => simp
  | cons l ls ih =>
    simp only [List.map_cons, List.flatten_cons, List.length_cons, List.length_append,
      FileLine.text]
    omega

theorem loadLoop_wellKinded (fuel : Nat) (input : Str) (acc : List Ieee.Transaction)
    (h : ∀ t ∈ acc, t.type = incomeName ∨ t.type = expenseName) :
    ∀ t ∈ (Ieee.loadLoop fuel input acc).1, t.type = incomeName ∨ t.type = expenseName := by
  induction fuel generalizing input acc with
  | zero => simpa [Ieee.loadLoop] using h
  | succ f ih =>
    unfold Ieee.loadLoop
    cases readFields input with
    | none => simpa using h
    | some p =>
      obtain ⟨type, amtStr, dt, nt, rest⟩ := p
      simp only
      cases stod amtStr with
      | error e => simpa using h
      | ok amt =>
        simp only
        have hacc : ∀ r : Ieee.Transaction, (r.type = incomeName ∨ r.type = expenseName) →
            ∀ t ∈ acc ++ [r], t.type = incomeName ∨ t.type = expenseName := by
          intro r hr t ht
          rcases List.mem_append.mp ht with ht | ht
          · exact h t ht
          · rw [List.mem_singleton.mp ht]; exact hr
        by_cases hi : type = incomeName
        · rw [if_pos hi]
          exact ih _ _ (hacc _ (Or.inl rfl))
        · rw [if_neg hi]
          exact ih _ _ (hacc _ (Or.inr rfl))

theorem loadLoopF_kinds (extract : Str → Option (ℚ × Str)) (fuel : Nat) (input : Str)
    (acc : List MiniProjectF.Transaction)
    (h : ∀ t ∈ acc, t.type = incomeName ∨ t.type = expenseName) :
    ∀ t ∈ MiniProjectF.loadLoop extract fuel input acc,
      t.type = incomeName ∨ t.type = expenseName := by
  induction fuel generalizing input acc with
  | zero => simpa [MiniProjectF.loadLoop] using h
  | succ f ih =>
    unfold MiniProjectF.loadLoop
    cases getline ',' input with
    | none => simpa using h
    | some p =>
      obtain ⟨type, in1⟩ := p
      simp only
      cases extract in1 with
      | none => simpa using h
      | some q =>
        obtain ⟨amt, in2⟩ := q
        simp only
        have hacc : ∀ r : MiniProjectF.Transaction,
            (r.type = incomeName ∨ r.type = expenseName) →
            ∀ t ∈ acc ++ [r], t.type = incomeName ∨ t.type = expenseName := by
          intro r hr t ht
          rcases List.mem_append.mp ht with ht | ht
          · exact h t ht
          · rw [List.mem_singleton.mp ht]; exact hr
        by_cases hi : type = incomeName
        · rw [if_pos hi]
          exact ih _ _ (hacc _ (Or.inl rfl))
        · rw [if_neg hi]
          exact ih _ _ (hacc _ (Or.inr rfl))

/-- C13: `loadFromFile` on a file made of well-formed lines (lines whose
amount field `stod` converts, be it to a number, an infinity or a NaN)
creates, line by line, an Income record if the first field is exactly
`Income` and an Expense record for every other first field, and throws
nothing; whatever the file holds, every loaded record has kind Income or
Expense; and `getBalance` subtracts the amount of every record whose kind is
not `Income`.  The loader of `MiniProjectF.cpp` chooses the kind in the same
way, whatever the extraction `file >> amt` reads. -/
theorem load_kind_defaulting (ifm : Ieee.FinanceManager) (fm : FinanceManager) (disk : Disk) :
    (∀ ls : List FileLine, (∀ l ∈ ls, l.WellFormed) →
        disk ifm.filename = some ((ls.map FileLine.text).flatten) →
        (ifm.loadFromFile disk).fm.records = ls.map FileLine.record
        ∧ (ifm.loadFromFile disk).thrown = none)
    ∧ (∀ l : FileLine, (l.record.type = incomeName ↔ l.type = incomeName)
        ∧ (l.record.type = expenseName ↔ l.type ≠ incomeName))
    ∧ (∀ t ∈ (ifm.loadFromFile disk).fm.records,
        t.type = incomeName ∨ t.type = expenseName)
    ∧ fm.getBalance = incomeTotal fm.records
        - ((fm.records.filter (fun t => ¬ t.type = incomeName)).map Transaction.amount).sum
    ∧ (∀ (extract : Str → Option (ℚ × Str)) (ffm : MiniProjectF.FinanceManager),
        ∀ t ∈ (ffm.loadFromFile extract disk).fm.records,
          t.type = incomeName ∨ t.type = expenseName)
    ∧ (∀ (extract : Str → Option (ℚ × Str)) (fuel : Nat) (input type in1 in2 : Str)
        (acc : List MiniProjectF.Transaction) (amt : ℚ),
        getline ',' input = some (type, in1) → extract in1 = some (amt, in2) →
        MiniProjectF.loadLoop extract (fuel + 1) input acc
          = MiniProjectF.loadLoop extract fuel (in2.drop 1)
              (acc ++ [if type = incomeName then MiniProjectF.Income amt
                else MiniProjectF.Expense amt])) := by
  have hne : ¬ expenseName = incomeName := by decide
  refine ⟨?_, ?_, ?_, ?_, ?_, ?_⟩
  · intro ls hw hd
    unfold Ieee.FinanceManager.loadFromFile
    rw [hd]
    simp only
    rw [loadLoop_lines ls _ [] (by have := length_le_lines ls; omega) hw]
    simp
  · intro l
    by_cases hi : l.type = incomeName
    · simp [FileLine.record, hi, Ne.symm hne]
    · simp [FileLine.record, hi, hne]
  · unfold Ieee.FinanceManager.loadFromFile
    cases disk ifm.filename with
    | none => simp
    | some content => exact loadLoop_wellKinded _ _ [] (by simp)
  · unfold FinanceManager.getBalance
    rw [foldl_totals]
    simp
  · intro extract ffm
    unfold MiniProjectF.FinanceManager.loadFromFile
    cases disk ffm.filename with
    | none => simp
    | some content => exact loadLoopF_kinds extract _ _ [] (by simp)
  · intro extract fuel input type in1 in2 acc amt hg he
    conv_lhs => unfold MiniProjectF.loadLoop
    simp only [hg, he]
    by_cases hi : type = incomeName
    · simp [hi]
    · simp [hi]

/-- The lines of the example file are well formed. -/
theorem mixedKindLines_wellFormed : ∀ l ∈ mixedKindLines, l.WellFormed := by
  intro l hl
  simp only [mixedKindLines, List.mem_cons, List.mem_singleton, List.not_mem_nil,
    or_false] at hl
  rcases hl with rfl | rfl | rfl | rfl | rfl
  · exact ⟨by decide, by decide, by decide, by decide, Double.finite 100, by decide!⟩
  · exact ⟨by decide, by decide, by decide, by decide, Double.finite 7.5, by decide!⟩
  · exact ⟨by decide, by decide, by decide, by decide, Double.finite 16, by decide!⟩
  · exact ⟨by decide, by decide, by decide, by decide, Double.inf false, by decide!⟩
  · exact ⟨by decide, by decide, by decide, by decide, Double.nan false, by decide!⟩

/-- Witness of C13: a file with the first fields `Income`, `income`, the
empty text, `Refund` and `Income` after an empty line, and with the amounts
`100`, `7.5`, `0x10`, `inf` and `nan`, loads as one Income record followed by
four Expense records with the amounts that `stod` reads; a two-line file of
the first version loads as Income 100, Expense 5. -/
theorem load_kind_defaulting_witness :
    (∀ l ∈ mixedKindLines, l.WellFormed)
    ∧ (noFiles.write csvName ((mixedKindLines.map FileLine.text).flatten)) csvName
      = some ("Income,100,2024-03-01 09:30:00,a\nincome,7.5,2024-03-01 09:30:00,b\n"
          ++ ",0x10,2024-03-01 09:30:00,c\nRefund,inf,2024-03-01 09:30:00,d\n"
          ++ "\nIncome,nan,2024-03-01 09:30:00,e\n").toList
    ∧ ((Ieee.FinanceManager.new csvName).loadFromFile
        (noFiles.write csvName ((mixedKindLines.map FileLine.text).flatten))).fm.records
      = [Ieee.Income (Double.finite 100) stamp "a".toList,
          Ieee.Expense (Double.finite 7.5) stamp "b".toList,
          Ieee.Expense (Double.finite 16) stamp "c".toList,
          Ieee.Expense (Double.inf false) stamp "d".toList,
          Ieee.Expense (Double.nan false) stamp "e".toList]
    ∧ ((MiniProjectF.FinanceManager.mk [] csvName).loadFromFile extractWhole
        (noFiles.write csvName "Income,100\nBonus,5\n".toList)).fm.records
      = [MiniProjectF.Income 100, MiniProjectF.Expense 5] := by
  have h := load_kind_defaulting (Ieee.FinanceManager.new csvName) (FinanceManager.new csvName)
    (noFiles.write csvName ((mixedKindLines.map FileLine.text).flatten))
  refine ⟨mixedKindLines_wellFormed, by decide!, ?_, by decide!⟩
  rw [(h.1 mixedKindLines mixedKindLines_wellFormed (by decide!)).1]
  decide!

/-! ### The three versions agree on the mutations -/

theorem toInt_of_lt (n : Nat) (h : n < 2 ^ 31) : toInt n = n := by
  unfold toInt
  omega

theorem bounds_check_iff (n : Nat) (i : Int) (hn : n < 2 ^ 31) (hi : i < 2 ^ 31) :
    (i < 0 ∨ toSizeT i ≥ n) ↔ (i < 0 ∨ i ≥ toInt n) := by
  rw [toInt_of_lt n hn]
  by_cases h0 : i < 0
  · simp [h0]
  · rw [toSizeT_of_nonneg i (by omega) hi]
    constructor
    · rintro (h | h)
      · exact Or.inl h
      · right; omega
    · rintro (h | h)
      · exact Or.inl h
      · right; omega

theorem map_eraseIdx {α β : Type} (f : α → β) (l : List α) (k : Nat) :
    (l.eraseIdx k).map f = (l.map f).eraseIdx k := by
  induction l generalizing k with
  | nil => simp
  | cons a as ih =>
    cases k with
    | zero => simp
    | succ k => simp [ih]

/-- C14: on a list of fewer than `2 ^ 31` records, with an `int` index and
any record, `addTransaction` and `removeTransaction` of `MiniProjectF.cpp`,
`tempCodeRunnerFile.cpp` and `MiniProjectFinal.cpp` throw in the same cases,
the same exception, and change the list in the same way once timestamp and
note are erased; the bounds check against the unsigned `records.size()`
rejects the same indices as the check against `(int)records.size()`. -/
theorem versions_agree (rs : List Transaction) (file : Str) (d1 d2 d3 : Disk) (i : Int)
    (t : Transaction) (hlen : rs.length < 2 ^ 31) (hint : -2 ^ 31 ≤ i ∧ i < 2 ^ 31) :
    ((FinanceManager.mk rs file).addTransaction d1 t).thrown
        = ((TempCodeRunner.FinanceManager.mk (rs.map Transaction.dropStamp) file).addTransaction
            d2 t.dropStamp).thrown
    ∧ ((FinanceManager.mk rs file).addTransaction d1 t).thrown
        = ((MiniProjectF.FinanceManager.mk (rs.map Transaction.dropNote) file).addTransaction
            d3 t.dropNote).thrown
    ∧ ((FinanceManager.mk rs file).addTransaction d1 t).fm.records.map Transaction.dropStamp
        = ((TempCodeRunner.FinanceManager.mk (rs.map Transaction.dropStamp) file).addTransaction
            d2 t.dropStamp).fm.records
    ∧ ((FinanceManager.mk rs file).addTransaction d1 t).fm.records.map Transaction.dropNote
        = ((MiniProjectF.FinanceManager.mk (rs.map Transaction.dropNote) file).addTransaction
            d3 t.dropNote).fm.records
    ∧ ((FinanceManager.mk rs file).removeTransaction d1 i).thrown
        = ((TempCodeRunner.FinanceManager.mk (rs.map Transaction.dropStamp) file).removeTransaction
            d2 i).thrown
    ∧ ((FinanceManager.mk rs file).removeTransaction d1 i).thrown
        = ((MiniProjectF.FinanceManager.mk (rs.map Transaction.dropNote) file).removeTransaction
            d3 i).thrown
    ∧ ((FinanceManager.mk rs file).removeTransaction d1 i).fm.records.map Transaction.dropStamp
        = ((TempCodeRunner.FinanceManager.mk (rs.map Transaction.dropStamp) file).removeTransaction
            d2 i).fm.records
    ∧ ((FinanceManager.mk rs file).removeTransaction d1 i).fm.records.map Transaction.dropNote
        = ((MiniProjectF.FinanceManager.mk (rs.map Transaction.dropNote) file).removeTransaction
            d3 i).fm.records
    ∧ ((i < 0 ∨ toSizeT i ≥ rs.length) ↔ (i < 0 ∨ i ≥ toInt rs.length)) := by
  have hb := bounds_check_iff rs.length i hlen hint.2
  have hadd : ((FinanceManager.mk rs file).addTransaction d1 t).thrown
        = ((TempCodeRunner.FinanceManager.mk (rs.map Transaction.dropStamp) file).addTransaction
            d2 t.dropStamp).thrown
    ∧ ((FinanceManager.mk rs file).addTransaction d1 t).thrown
        = ((MiniProjectF.FinanceManager.mk (rs.map Transaction.dropNote) file).addTransaction
            d3 t.dropNote).thrown
    ∧ ((FinanceManager.mk rs file).addTransaction d1 t).fm.records.map Transaction.dropStamp
        = ((TempCodeRunner.FinanceManager.mk (rs.map Transaction.dropStamp) file).addTransaction
            d2 t.dropStamp).fm.records
    ∧ ((FinanceManager.mk rs file).addTransaction d1 t).fm.records.map Transaction.dropNote
        = ((MiniProjectF.FinanceManager.mk (rs.map Transaction.dropNote) file).addTransaction
            d3 t.dropNote).fm.records := by
    by_cases ha : t.amount ≤ 0
    · simp [FinanceManager.addTransaction, TempCodeRunner.FinanceManager.addTransaction,
        MiniProjectF.FinanceManager.addTransaction, Transaction.dropStamp, Transaction.dropNote,
        ha]
    · simp [FinanceManager.addTransaction, TempCodeRunner.FinanceManager.addTransaction,
        MiniProjectF.FinanceManager.addTransaction, Transaction.dropStamp, Transaction.dropNote,
        ha]
  have hrem : ((FinanceManager.mk rs file).removeTransaction d1 i).thrown
        = ((TempCodeRunner.FinanceManager.mk (rs.map Transaction.dropStamp) file).removeTransaction
            d2 i).thrown
    ∧ ((FinanceManager.mk rs file).removeTransaction d1 i).thrown
        = ((MiniProjectF.FinanceManager.mk (rs.map Transaction.dropNote) file).removeTransaction
            d3 i).thrown
    ∧ ((FinanceManager.mk rs file).removeTransaction d1 i).fm.records.map Transaction.dropStamp
        = ((TempCodeRunner.FinanceManager.mk (rs.map Transaction.dropStamp) file).removeTransaction
            d2 i).fm.records
    ∧ ((FinanceManager.mk rs file).removeTransaction d1 i).fm.records.map Transaction.dropNote
        = ((MiniProjectF.FinanceManager.mk (rs.map Transaction.dropNote) file).removeTransaction
            d3 i).fm.records := by
    by_cases hc : i < 0 ∨ toSizeT i ≥ rs.length
    · have hc2 := hb.mp hc
      simp only [FinanceManager.removeTransaction,
        TempCodeRunner.FinanceManager.removeTransaction,
        MiniProjectF.FinanceManager.removeTransaction, List.length_map, hc, hc2, if_true]
      exact ⟨trivial, trivial, trivial, trivial⟩
    · have hc2 : ¬ (i < 0 ∨ i ≥ toInt rs.length) := fun h => hc (hb.mpr h)
      simp only [FinanceManager.removeTransaction,
        TempCodeRunner.FinanceManager.removeTransaction,
        MiniProjectF.FinanceManager.removeTransaction, List.length_map, hc, hc2, if_false]
      exact ⟨trivial, trivial, map_eraseIdx _ _ _, map_eraseIdx _ _ _⟩
  exact ⟨hadd.1, hadd.2.1, hadd.2.2.1, hadd.2.2.2, hrem.1, hrem.2.1, hrem.2.2.1, hrem.2.2.2, hb⟩

/-- Witness of C14: on the ledger Income 100, Expense 40, Income 5 the three
versions accept the index 1 and the record Expense 30, and the two earlier
versions are left with the erased records of the final one. -/
theorem versions_agree_witness :
    balanceLedger.records.length < 2 ^ 31
    ∧ (-(2 : Int) ^ 31 ≤ 1 ∧ (1 : Int) < 2 ^ 31)
    ∧ ((TempCodeRunner.FinanceManager.mk (balanceLedger.records.map Transaction.dropStamp)
          csvName).removeTransaction noFiles 1).fm.records
        = [TempCodeRunner.Income 100 "salary".toList, TempCodeRunner.Income 5 "refund".toList]
    ∧ ((MiniProjectF.FinanceManager.mk (balanceLedger.records.map Transaction.dropNote)
          csvName).addTransaction noFiles (Expense 30 stamp []).dropNote).fm.records
        = [MiniProjectF.Income 100, MiniProjectF.Expense 40, MiniProjectF.Income 5,
            MiniProjectF.Expense 30]
    ∧ ((MiniProjectF.FinanceManager.mk (balanceLedger.records.map Transaction.dropNote)
          csvName).removeTransaction noFiles 1).thrown = none := by
  have h := versions_agree balanceLedger.records csvName noFiles noFiles noFiles 1
    (Expense 30 stamp []) (by decide) (by decide)
  refine ⟨by decide, by decide, ?_, ?_, ?_⟩
  · rw [← h.2.2.2.2.2.2.1]; decide!
  · rw [← h.2.2.2.1]; decide!
  · rw [← h.2.2.2.2.2.1]; decide!

/-! ### Commas and newlines in notes -/

theorem getline_noDelim (delim : Char) (input field rest : Str)
    (h : getline delim input = some (field, rest)) : delim ∉ field := by
  induction input generalizing field rest with
  | nil => simp [getline] at h
  | cons c cs ih =>
    unfold getline at h
    by_cases hc : c = delim
    · simp only [hc, if_true, Option.some.injEq, Prod.mk.injEq] at h
      rw [← h.1]; simp
    · simp only [hc, if_false] at h
      cases hg : getline delim cs with
      | none =>
        rw [hg] at h
        simp only [Option.some.injEq, Prod.mk.injEq] at h
        rw [← h.1]
        simp only [List.mem_singleton]
        exact fun e => hc e.symm
      | some p =>
        rw [hg] at h
        simp only [Option.some.injEq, Prod.mk.injEq] at h
        have := ih p.1 p.2 (by rw [hg])
        rw [← h.1]
        simp only [List.mem_cons, not_or]
        exact ⟨fun e => hc e.symm, this⟩

theorem readFields_clean (input type amtStr dt nt rest : Str)
    (h : readFields input = some (type, amtStr, dt, nt, rest)) :
    ',' ∉ dt ∧ '\n' ∉ nt := by
  unfold readFields at h
  cases hg1 : getline ',' input with
  | none => simp [hg1] at h
  | some p1 =>
    obtain ⟨f1, in1⟩ := p1
    simp only [hg1] at h
    cases hg2 : getline ',' in1 with
    | none => simp [hg2] at h
    | some p2 =>
      obtain ⟨f2, in2⟩ := p2
      simp only [hg2] at h
      cases hg3 : getline ',' in2 with
      | none => simp [hg3] at h
      | some p3 =>
        obtain ⟨f3, in3⟩ := p3
        simp only [hg3] at h
        cases hg4 : getline '\n' in3 with
        | none => simp [hg4] at h
        | some p4 =>
          obtain ⟨f4, in4⟩ := p4
          simp only [hg4, Option.some.injEq, Prod.mk.injEq] at h
          have l3 := getline_noDelim _ _ _ _ hg3
          have l4 := getline_noDelim _ _ _ _ hg4
          rw [← h.2.2.1, ← h.2.2.2.1]
          exact ⟨l3, l4⟩

/-- Whatever the file holds, a loaded record has no comma in its timestamp
and no newline in its note. -/
theorem loadLoop_clean (fuel : Nat) (input : Str) (acc : List Transaction)
    (h : ∀ t ∈ acc, ',' ∉ t.dateTime ∧ '\n' ∉ t.note) :
    ∀ t ∈ (loadLoop fuel input acc).1, ',' ∉ t.dateTime ∧ '\n' ∉ t.note := by
  induction fuel generalizing input acc with
  | zero => simpa [loadLoop] using h
  | succ f ih =>
    unfold loadLoop
    cases hr : readFields input with
    | none => simpa using h
    | some p =>
      obtain ⟨type, amtStr, dt, nt, rest⟩ := p
      have hc := readFields_clean _ _ _ _ _ _ hr
      simp only
      cases stod amtStr with
      | error e => simpa using h
      | ok d =>
        simp only
        cases d.exact with
        | none => simpa using h
        | some amt =>
          simp only
          have hacc : ∀ r : Transaction, (',' ∉ r.dateTime ∧ '\n' ∉ r.note) →
              ∀ t ∈ acc ++ [r], ',' ∉ t.dateTime ∧ '\n' ∉ t.note := by
            intro r hr t ht
            rcases List.mem_append.mp ht with ht | ht
            · exact h t ht
            · rw [List.mem_singleton.mp ht]; exact hr
          by_cases hi : type = incomeName
          · rw [if_pos hi]
            exact ih _ _ (hacc _ hc)
          · rw [if_neg hi]
            exact ih _ _ (hacc _ hc)

theorem loadFromFile_clean (fm : FinanceManager) (disk : Disk) :
    ∀ t ∈ (fm.loadFromFile disk).fm.records, ',' ∉ t.dateTime ∧ '\n' ∉ t.note := by
  unfold FinanceManager.loadFromFile
  cases disk fm.filename with
  | none => simp
  | some content => exact loadLoop_clean _ _ [] (by simp)

theorem readFieldsTemp_clean (input type amtStr nt rest : Str)
    (h : TempCodeRunner.readFields input = some (type, amtStr, nt, rest)) : '\n' ∉ nt := by
  unfold TempCodeRunner.readFields at h
  cases hg1 : getline ',' input with
  | none => simp [hg1] at h
  | some p1 =>
    obtain ⟨f1, in1⟩ := p1
    simp only [hg1] at h
    cases hg2 : getline ',' in1 with
    | none => simp [hg2] at h
    | some p2 =>
      obtain ⟨f2, in2⟩ := p2
      simp only [hg2] at h
      cases hg3 : getline '\n' in2 with
      | none => simp [hg3] at h
      | some p3 =>
        obtain ⟨f3, in3⟩ := p3
        simp only [hg3, Option.some.injEq, Prod.mk.injEq] at h
        have l3 := getline_noDelim _ _ _ _ hg3
        rw [← h.2.2.1]
        exact l3

theorem loadLoopTemp_clean (fuel : Nat) (input : Str) (acc : List TempCodeRunner.Transaction)
    (h : ∀ t ∈ acc, '\n' ∉ t.note) :
    ∀ t ∈ (TempCodeRunner.loadLoop fuel input acc).1, '\n' ∉ t.note := by
  induction fuel generalizing input acc with
  | zero => simpa [TempCodeRunner.loadLoop] using h
  | succ f ih =>
    unfold TempCodeRunner.loadLoop
    cases hr : TempCodeRunner.readFields input with
    | none => simpa using h
    | some p =>
      obtain ⟨type, amtStr, nt, rest⟩ := p
      have hc := readFieldsTemp_clean _ _ _ _ _ hr
      simp only
      cases stod amtStr with
      | error e => simpa using h
      | ok d =>
        simp only
        cases d.exact with
        | none => simpa using h
        | some amt =>
          simp only
          have hacc : ∀ r : TempCodeRunner.Transaction, '\n' ∉ r.note →
              ∀ t ∈ acc ++ [r], '\n' ∉ t.note := by
            intro r hr t ht
            rcases List.mem_append.mp ht with ht | ht
            · exact h t ht
            · rw [List.mem_singleton.mp ht]; exact hr
          by_cases hi : type = incomeName
          · rw [if_pos hi]
            exact ih _ _ (hacc _ hc)
          · rw [if_neg hi]
            exact ih _ _ (hacc _ hc)

theorem loadFromFileTemp_clean (fm : TempCodeRunner.FinanceManager) (disk : Disk) :
    ∀ t ∈ (fm.loadFromFile disk).fm.records, '\n' ∉ t.note := by
  unfold TempCodeRunner.FinanceManager.loadFromFile
  cases disk fm.filename with
  | none => simp
  | some content => exact loadLoopTemp_clean _ _ [] (by simp)

theorem readFieldsTemp_length (input type amtStr nt rest : Str)
    (h : TempCodeRunner.readFields input = some (type, amtStr, nt, rest)) :
    rest.length < input.length := by
  unfold TempCodeRunner.readFields at h
  cases hg1 : getline ',' input with
  | none => simp [hg1] at h
  | some p1 =>
    obtain ⟨f1, in1⟩ := p1
    simp only [hg1] at h
    cases hg2 : getline ',' in1 with
    | none => simp [hg2] at h
    | some p2 =>
      obtain ⟨f2, in2⟩ := p2
      simp only [hg2] at h
      cases hg3 : getline '\n' in2 with
      | none => simp [hg3] at h
      | some p3 =>
        obtain ⟨f3, in3⟩ := p3
        simp only [hg3, Option.some.injEq, Prod.mk.injEq] at h
        have l1 := getline_length _ _ _ _ hg1
        have l2 := getline_length _ _ _ _ hg2
        have l3 := getline_length _ _ _ _ hg3
        rw [← h.2.2.2]
        omega

/-- Fuel above the length of the input is never used up by the loader of
`tempCodeRunnerFile.cpp`. -/
theorem loadLoopTemp_fuel (fuel1 fuel2 : Nat) (input : Str)
    (acc : List TempCodeRunner.Transaction)
    (h1 : input.length < fuel1) (h2 : input.length < fuel2) :
    TempCodeRunner.loadLoop fuel1 input acc = TempCodeRunner.loadLoop fuel2 input acc := by
  induction fuel1 generalizing fuel2 input acc with
  | zero => omega
  | succ f1 ih =>
    cases fuel2 with
    | zero => omega
    | succ f2 =>
      unfold TempCodeRunner.loadLoop
      cases hr : TempCodeRunner.readFields input with
      | none => rfl
      | some p =>
        obtain ⟨type, amtStr, nt, rest⟩ := p
        have hl := readFieldsTemp_length _ _ _ _ _ hr
        simp only
        cases stod amtStr with
        | error e => rfl
        | ok d =>
          simp only
          cases d.exact with
          | none => rfl
          | some amt =>
            simp only
            rw [ih f2 rest _ (by omega) (by omega), ih f2 rest _ (by omega) (by omega)]

/-- Fuel above the length of the input is never used up by the loader of
`MiniProjectF.cpp`, for an extraction that leaves a part of what it was
given. -/
theorem loadLoopF_fuel (extract : Str → Option (ℚ × Str))
    (hex : ∀ s amt rest, extract s = some (amt, rest) → rest.length ≤ s.length)
    (fuel1 fuel2 : Nat) (input : Str) (acc : List MiniProjectF.Transaction)
    (h1 : input.length < fuel1) (h2 : input.length < fuel2) :
    MiniProjectF.loadLoop extract fuel1 input acc
      = MiniProjectF.loadLoop extract fuel2 input acc := by
  induction fuel1 generalizing fuel2 input acc with
  | zero => omega
  | succ f1 ih =>
    cases fuel2 with
    | zero => omega
    | succ f2 =>
      unfold MiniProjectF.loadLoop
      cases hg : getline ',' input with
      | none => rfl
      | some p =>
        obtain ⟨type, in1⟩ := p
        have hl := getline_length _ _ _ _ hg
        simp only
        cases he : extract in1 with
        | none => rfl
        | some q =>
          obtain ⟨amt, in2⟩ := q
          have hl2 := hex _ _ _ he
          have hl3 : (in2.drop 1).length ≤ in2.length := by simp
          simp only
          rw [ih f2 _ _ (by omega) (by omega), ih f2 _ _ (by omega) (by omega)]

theorem foldl_writeRecordTemp (rs : List TempCodeRunner.Transaction) (out : Str) :
    rs.foldl TempCodeRunner.writeRecord out = out ++ TempCodeRunner.serialize rs := by
  induction rs generalizing out with
  | nil => simp [TempCodeRunner.serialize]
  | cons t ts ih =>
    simp only [List.foldl_cons, ih, TempCodeRunner.serialize, List.map_cons, List.flatten_cons]
    simp [TempCodeRunner.writeRecord, TempCodeRunner.recordLine, List.append_assoc]

theorem saveToFileTemp_file (fm : TempCodeRunner.FinanceManager) (disk : Disk)
    (hw : disk.canWrite fm.filename = true) :
    fm.saveToFile disk fm.filename = some (TempCodeRunner.serialize fm.records) := by
  simp [TempCodeRunner.FinanceManager.saveToFile, foldl_writeRecordTemp, write_read, hw]

theorem readFieldsTemp_recordLine (t : TempCodeRunner.Transaction) (rest : Str)
    (h1 : ',' ∉ t.type) (h2 : '\n' ∉ t.note) :
    TempCodeRunner.readFields (TempCodeRunner.recordLine t ++ rest)
      = some (t.type, showDouble t.amount, t.note, rest) := by
  have e : TempCodeRunner.recordLine t ++ rest
      = t.type ++ ',' :: (showDouble t.amount ++ ',' :: (t.note ++ '\n' :: rest)) := by
    simp [TempCodeRunner.recordLine, List.append_assoc]
  rw [e]
  unfold TempCodeRunner.readFields
  rw [getline_field _ _ _ h1]
  simp only
  rw [getline_field _ _ _ (showDouble_noComma _)]
  simp only
  rw [getline_field _ _ _ h2]

theorem loadLoopTemp_serialize (rs : List TempCodeRunner.Transaction) (fuel : Nat)
    (acc : List TempCodeRunner.Transaction) (hf : rs.length ≤ fuel)
    (hs : ∀ t ∈ rs, (t.type = incomeName ∨ t.type = expenseName) ∧ '\n' ∉ t.note
      ∧ SixDigit t.amount ∧ InDoubleRange t.amount) :
    TempCodeRunner.loadLoop fuel (TempCodeRunner.serialize rs) acc = (acc ++ rs, none) := by
  induction rs generalizing fuel acc with
  | nil =>
    cases fuel with
    | zero => simp [TempCodeRunner.loadLoop]
    | succ f =>
      simp [TempCodeRunner.loadLoop, TempCodeRunner.serialize, TempCodeRunner.readFields,
        getline]
  | cons t ts ih =>
    cases fuel with
    | zero => simp at hf
    | succ f =>
      obtain ⟨hk, hnt, hamt⟩ := hs t (List.mem_cons_self _ _)
      have hty : ',' ∉ t.type := by
        rcases hk with hk | hk <;> rw [hk] <;> decide
      have e : TempCodeRunner.serialize (t :: ts)
          = TempCodeRunner.recordLine t ++ TempCodeRunner.serialize ts := by
        simp [TempCodeRunner.serialize]
      rw [e]
      unfold TempCodeRunner.loadLoop
      rw [readFieldsTemp_recordLine t _ hty hnt]
      simp only [stod_showDouble t.amount hamt.1 hamt.2, Double.exact]
      have ih2 := fun r => ih f (acc ++ [r]) (by simpa using hf)
        (fun u hu => hs u (List.mem_cons_of_mem _ hu))
      rcases hk with hk | hk
      · have hrec : TempCodeRunner.Income t.amount t.note = t := by
          cases t
          simp only [TempCodeRunner.Income] at hk ⊢
          rw [hk]
        rw [if_pos hk, ih2, hrec]; simp
      · have hne : ¬ t.type = incomeName := by rw [hk]; decide
        have hrec : TempCodeRunner.Expense t.amount t.note = t := by
          cases t
          simp only [TempCodeRunner.Expense] at hk ⊢
          rw [hk]
        rw [if_neg hne, ih2, hrec]; simp

theorem length_le_serializeTemp (rs : List TempCodeRunner.Transaction) :
    rs.length ≤ (TempCodeRunner.serialize rs).length := by
  induction rs with
  | nil => simp
  | cons t ts ih =>
    have e : TempCodeRunner.serialize (t :: ts)
        = TempCodeRunner.recordLine t ++ TempCodeRunner.serialize ts := by
      simp [TempCodeRunner.serialize]
    rw [e]
    simp only [List.length_cons, List.length_append, TempCodeRunner.recordLine, List.length_nil]
    omega

theorem save_load_temp (fm : TempCodeRunner.FinanceManager) (disk : Disk)
    (hw : disk.canWrite fm.filename = true)
    (hs : ∀ t ∈ fm.records, (t.type = incomeName ∨ t.type = expenseName) ∧ '\n' ∉ t.note
      ∧ SixDigit t.amount ∧ InDoubleRange t.amount) :
    ((TempCodeRunner.FinanceManager.new fm.filename).loadFromFile
        (fm.saveToFile disk)).fm.records = fm.records := by
  unfold TempCodeRunner.FinanceManager.loadFromFile
  have hd : fm.saveToFile disk (TempCodeRunner.FinanceManager.new fm.filename).filename
      = some (TempCodeRunner.serialize fm.records) := saveToFileTemp_file fm disk hw
  rw [hd]
  simp only
  rw [loadLoopTemp_serialize fm.records _ []
    (by have := length_le_serializeTemp fm.records; omega) hs]
  simp

/-- The records of the receipt example of `tempCodeRunnerFile.cpp` meet the
conditions of the round trip. -/
theorem tempReceiptLedger_storable : ∀ t ∈ tempReceiptLedger.records,
    (t.type = incomeName ∨ t.type = expenseName) ∧ '\n' ∉ t.note ∧ SixDigit t.amount
      ∧ InDoubleRange t.amount := by
  intro t ht
  simp only [tempReceiptLedger, List.mem_cons, List.mem_singleton, List.not_mem_nil,
    or_false] at ht
  rcases ht with rfl | rfl
  · exact ⟨by decide, by decide, ⟨125075, -2, by norm_num,
      by norm_num [TempCodeRunner.Income]⟩, by decide!⟩
  · exact ⟨by decide, by decide, ⟨5, -1, by norm_num, by norm_num [TempCodeRunner.Expense]⟩,
      by decide!⟩

/-- C11, amended: in both formats that persist a note, the note is the last
field and is read to the end of the line, so commas in notes are kept: when
the backing file can be written, a ledger of records of kind Income or
Expense with amounts of at most six significant digits that are zero or
normal `double`s in magnitude, and notes without a newline (and, in the final
version, timestamps without a comma) is reproduced by `saveToFile` followed
by `loadFromFile`.  What is never reproduced is a ledger with a record whose
note holds a newline or, in the final version, whose timestamp holds a
comma. -/
theorem note_commas_kept (fm : FinanceManager) (tfm : TempCodeRunner.FinanceManager)
    (disk : Disk) :
    (disk.canWrite fm.filename = true →
      (∀ t ∈ fm.records,
        WellKinded t ∧ ',' ∉ t.dateTime ∧ '\n' ∉ t.note ∧ SixDigit t.amount
          ∧ InDoubleRange t.amount) →
      ((FinanceManager.new fm.filename).loadFromFile (fm.saveToFile disk)).fm.records
        = fm.records)
    ∧ (disk.canWrite tfm.filename = true →
      (∀ t ∈ tfm.records,
        (t.type = incomeName ∨ t.type = expenseName) ∧ '\n' ∉ t.note ∧ SixDigit t.amount
          ∧ InDoubleRange t.amount) →
      ((TempCodeRunner.FinanceManager.new tfm.filename).loadFromFile
        (tfm.saveToFile disk)).fm.records = tfm.records)
    ∧ ((∃ t ∈ fm.records, '\n' ∈ t.note ∨ ',' ∈ t.dateTime) →
      ((FinanceManager.new fm.filename).loadFromFile (fm.saveToFile disk)).fm.records
        ≠ fm.records)
    ∧ ((∃ t ∈ tfm.records, '\n' ∈ t.note) →
      ((TempCodeRunner.FinanceManager.new tfm.filename).loadFromFile
        (tfm.saveToFile disk)).fm.records ≠ tfm.records) := by
  refine ⟨?_, ?_, ?_, ?_⟩
  · intro hw hs
    exact (loadFromFile_serialize (FinanceManager.new fm.filename) (fm.saveToFile disk)
      fm.records (saveToFile_file fm disk hw)
      (fun t ht => storable_of_sixDigit t (hs t ht))).1
  · exact save_load_temp tfm disk
  · rintro ⟨t, ht, hbad⟩ heq
    have hc := loadFromFile_clean (FinanceManager.new fm.filename) (fm.saveToFile disk) t
      (by rw [heq]; exact ht)
    rcases hbad with hbad | hbad
    · exact hc.2 hbad
    · exact hc.1 hbad
  · rintro ⟨t, ht, hbad⟩ heq
    exact loadFromFileTemp_clean (TempCodeRunner.FinanceManager.new tfm.filename)
      (tfm.saveToFile disk) t (by rw [heq]; exact ht) hbad

/-- Witness of the amended C11: the two ledgers with commas in their notes
are reproduced, the two with a newline in a note are not. -/
theorem note_commas_kept_witness :
    noFiles.canWrite receiptLedger.filename = true
    ∧ noFiles.canWrite tempReceiptLedger.filename = true
    ∧ (∀ t ∈ receiptLedger.records,
        WellKinded t ∧ ',' ∉ t.dateTime ∧ '\n' ∉ t.note ∧ SixDigit t.amount
          ∧ InDoubleRange t.amount)
    ∧ (∀ t ∈ tempReceiptLedger.records,
        (t.type = incomeName ∨ t.type = expenseName) ∧ '\n' ∉ t.note ∧ SixDigit t.amount
          ∧ InDoubleRange t.amount)
    ∧ ((FinanceManager.new receiptLedger.filename).loadFromFile
        (receiptLedger.saveToFile noFiles)).fm.records = receiptLedger.records
    ∧ ((TempCodeRunner.FinanceManager.new tempReceiptLedger.filename).loadFromFile
        (tempReceiptLedger.saveToFile noFiles)).fm.records = tempReceiptLedger.records
    ∧ ((FinanceManager.new newlineNoteLedger.filename).loadFromFile
        (newlineNoteLedger.saveToFile noFiles)).fm.records ≠ newlineNoteLedger.records
    ∧ ((TempCodeRunner.FinanceManager.new tempNewlineNoteLedger.filename).loadFromFile
        (tempNewlineNoteLedger.saveToFile noFiles)).fm.records
        ≠ tempNewlineNoteLedger.records :=
  ⟨rfl, rfl, receiptLedger_storable, tempReceiptLedger_storable,
    (note_commas_kept receiptLedger tempReceiptLedger noFiles).1 rfl receiptLedger_storable,
    (note_commas_kept receiptLedger tempReceiptLedger noFiles).2.1 rfl
      tempReceiptLedger_storable,
    (note_commas_kept newlineNoteLedger tempNewlineNoteLedger noFiles).2.2.1
      ⟨Income 100 stamp "first\nsecond".toList, by decide!, Or.inl (by decide)⟩,
    (note_commas_kept newlineNoteLedger tempNewlineNoteLedger noFiles).2.2.2
      ⟨TempCodeRunner.Income 100 "first\nsecond".toList, by decide!, by decide⟩⟩

/-- C11 as stated fails: each of these two ledgers holds a record whose note
has a comma and no newline, and `saveToFile` followed by `loadFromFile` gives
back exactly its records, in the final version and in
`tempCodeRunnerFile.cpp`. -/
theorem note_comma_counterexample :
    (∃ t ∈ receiptLedger.records, ',' ∈ t.note ∧ '\n' ∉ t.note)
    ∧ (receiptLedger.saveToFile noFiles) csvName
        = some ("Income,1250.75,2024-03-01 09:30:00,salary, March\n"
            ++ "Expense,0.5,2024-03-01 09:30:00,stamp\n").toList
    ∧ ((FinanceManager.new receiptLedger.filename).loadFromFile
        (receiptLedger.saveToFile noFiles)).fm.records = receiptLedger.records
    ∧ (∃ t ∈ tempReceiptLedger.records, ',' ∈ t.note ∧ '\n' ∉ t.note)
    ∧ (tempReceiptLedger.saveToFile noFiles) "finance.csv".toList
        = some ("Income,1250.75,salary, March\n"
            ++ "Expense,0.5,stamp, letter, card\n").toList
    ∧ ((TempCodeRunner.FinanceManager.new tempReceiptLedger.filename).loadFromFile
        (tempReceiptLedger.saveToFile noFiles)).fm.records = tempReceiptLedger.records := by
  refine ⟨by decide!, by decide!, by decide!, by decide!, by decide!, by decide!⟩

end Ledger
